import Mathlib

/-!
Urkel tree internals: nodes, values and their binary codecs

A shallow embedding of `go/storage/mkvs/urkel/internal/node.go`.

* Go byte slices are lists of bytes; a slice that may be `nil` is an
  `Option (List Byte)`.
* A method with a pointer receiver that assigns to the receiver returns the
  receiver after the call next to its Go results.
* A Go result pair `(int, error)` is a pair `Nat × Option GoError`, where
  `none` is the `nil` error.
* A method that can panic returns `Exec`.
* A `Node` interface value is nil or holds a pointer that is not nil.
* `int` is taken to be 64 bits wide, so `int(uint32)` and `valueLen + 4` do
  not wrap.
-/

set_option linter.dupNamespace false

/-- A byte. -/
abbrev Byte := Fin 256

/-- The error values that the node layer can return. -/
inductive GoError where
  /-- The package variable `ErrMalformed` ("urkel: malformed node"). -/
  | ErrMalformed
  /-- The error of the hash codec, a different value from `ErrMalformed`. -/
  | HashErrMalformed
  /-- The error "urkel: node has dirty pointers". -/
  | DirtyPointers
  /-- The error "urkel: node has dirty value". -/
  | DirtyValue
  /-- The error "urkel: node hash mismatch (expected: .. got: ..)". -/
  | NodeHashMismatch (expected got : List Byte)
  /-- The error "urkel: value hash mismatch (expected: .. got: ..)". -/
  | ValueHashMismatch (expected got : List Byte)
deriving DecidableEq, Repr

/-- The outcome of a call that may panic. -/
inductive Exec (α : Type) where
  /-- The call returned. -/
  | ret (a : α)
  /-- The call panicked with the given message. -/
  | panic (msg : String)
deriving DecidableEq, Repr

/-! ## Go builtins and `encoding/binary` -/

/-- Go's `make([]byte, n)`: `n` zero bytes. -/
def make (n : Nat) : List Byte := List.replicate n 0

/-- Go's `len` of a slice that may be nil. -/
def len (s : Option (List Byte)) : Nat :=
  match s with
  | some b => b.length
  | none => 0

/-- The elements of a slice that may be nil. -/
def elems (s : Option (List Byte)) : List Byte :=
  match s with
  | some b => b
  | none => []

/-- Go's `copy(dst, src)`: the contents of `dst` after the call. The first
`min(len(dst), len(src))` elements come from `src`, the rest of `dst` stays. -/
def copy (dst src : List Byte) : List Byte :=
  src.take dst.length ++ dst.drop src.length

/-- The conversion `uint32(n)` of a non-negative `int`. -/
def uint32 (n : Nat) : Nat := n % 2 ^ 32

/-- The byte `byte(n)` of a non-negative integer. -/
def byte (n : Nat) : Byte := ⟨n % 256, Nat.mod_lt _ (by decide)⟩

/-- The call `binary.LittleEndian.PutUint32(b, v)`: the contents of `b`
after the call, for `len(b) >= 4` and `v < 2^32`. -/
def PutUint32 (b : List Byte) (v : Nat) : List Byte :=
  [byte v, byte (v / 2 ^ 8), byte (v / 2 ^ 16), byte (v / 2 ^ 24)] ++ b.drop 4

/-- The call `binary.LittleEndian.Uint32(b)` for `len(b) >= 4`. -/
def Uint32 (b : List Byte) : Nat :=
  (b.getD 0 0).val + (b.getD 1 0).val * 2 ^ 8 + (b.getD 2 0).val * 2 ^ 16
    + (b.getD 3 0).val * 2 ^ 24

/-- The little-endian encoding of a 32-bit unsigned integer, low byte first. -/
def littleEndianU32 (v : Nat) : List Byte :=
  [byte v, byte (v / 2 ^ 8), byte (v / 2 ^ 16), byte (v / 2 ^ 24)]

/-! ## The hash package -/

namespace hash

/-- Modelled from the spec: the constant `hash.Size` (the hash package is not
under src/); the spec fixes `HASH_SIZE = 32`. -/
def Size : Nat := 32

/-- Modelled from the spec: the type `hash.Hash`, "a fixed-width digest of
size HASH_SIZE bytes" (a Go byte array `[Size]byte`). -/
structure Hash where
  /-- The bytes of the digest, `h[:]`. -/
  bytes : List Byte
  /-- The array has exactly `Size` elements. -/
  size_eq : bytes.length = Size
deriving DecidableEq, Repr

/-- Modelled from the spec: the external hash primitive, which is not under
src/. `digest` is the "hash-of-concatenated-byte-chunks" function `H`, and
`emptyHash` is the "distinguished empty value" written by `Empty()` and tested
by `IsEmpty()`. Nothing is assumed about either. -/
structure Primitive where
  /-- The digest `H` of a byte string. -/
  digest : List Byte → Hash
  /-- The empty hash constant. -/
  emptyHash : Hash

/-- The zero value of a Go `var h hash.Hash`: `Size` zero bytes. -/
def Hash.zero : Hash := ⟨List.replicate Size 0, List.length_replicate _ _⟩

/-- Modelled from the spec: `h.FromBytes(chunks...)` sets `h` to the digest of
the concatenation of the chunks. -/
def Hash.FromBytes (hp : Primitive) (_h : Hash) (chunks : List (List Byte)) : Hash :=
  hp.digest chunks.flatten

/-- Modelled from the spec: `h.Empty()` sets `h` to the empty hash constant. -/
def Hash.Empty (hp : Primitive) (_h : Hash) : Hash := hp.emptyHash

/-- Modelled from the spec: `h.Equal(cmp)` is equality of the digests. -/
def Hash.Equal (h cmp : Hash) : Bool := decide (h = cmp)

/-- Modelled from the spec: `h.IsEmpty()` compares with the empty hash
constant. -/
def Hash.IsEmpty (hp : Primitive) (h : Hash) : Bool := h.Equal hp.emptyHash

/-- Modelled from the spec: `h.UnmarshalBinary(data)`, the binary codec of the
fixed-width digest (not under src/). As in the repository's other fixed-width
codec, `Namespace.UnmarshalBinary`, the input has to be exactly `Size` bytes
long; it is then copied into `h`. Returns `h` after the call and the error. -/
def Hash.UnmarshalBinary (h : Hash) (data : List Byte) : Hash × Option GoError :=
  if hlen : data.length ≠ Size then
    (h, some GoError.HashErrMalformed)
  else
    (⟨data, not_not.mp hlen⟩, none)

end hash

namespace internal

open hash

/-! ## Constants of the node layer -/

/-- Prefix used in hash computations of leaf nodes. -/
def PrefixLeafNode : Byte := 0x00

/-- Prefix used in hash computations of internal nodes. -/
def PrefixInternalNode : Byte := 0x01

/-- Prefix used to mark a nil pointer in a subtree serialization. -/
def PrefixNilNode : Byte := 0x02

/-! ## Value -/

/-- The struct `Value`. `LRU` is the `*list.Element`, an uninterpreted handle
when present. -/
structure Value where
  Clean : Bool
  Hash : hash.Hash
  Value : Option (List Byte)
  LRU : Option Nat
deriving DecidableEq, Repr

/-- The zero value `&Value{}`. -/
def Value.zero : internal.Value := ⟨false, hash.Hash.zero, none, none⟩

/-- `GetHash` returns the value's cached hash. -/
def Value.GetHash (v : internal.Value) : hash.Hash := v.Hash

/-- `UpdateHash` updates the value's cached hash by recomputing it. -/
def Value.UpdateHash (hp : hash.Primitive) (v : internal.Value) : internal.Value :=
  { v with Hash := v.Hash.FromBytes hp [elems v.Value] }

/-- `MarshalBinary` encodes a value into binary form. -/
def Value.MarshalBinary (v : internal.Value) : List Byte × Option GoError :=
  let data := make (4 + len v.Value)
  let data := PutUint32 (data.take 4) (uint32 (len v.Value)) ++ data.drop 4
  let data :=
    match v.Value with
    | some b => data.take 4 ++ copy (data.drop 4) b
    | none => data
  (data, none)

/-- `SizedUnmarshalBinary` decodes a binary marshaled value. Returns the
receiver after the call, the number of bytes reported as consumed, and the
error. -/
def Value.SizedUnmarshalBinary (hp : hash.Primitive) (v : internal.Value) (data : List Byte) :
    internal.Value × Nat × Option GoError :=
  if data.length < 4 then
    (v, 0, some GoError.ErrMalformed)
  else
    let valueLen := Uint32 (data.take 4)
    let v := { v with Value := none }
    let v := { v with Clean := true }
    let v :=
      if valueLen > 0 then
        { v with Value := some (copy (make valueLen) (data.drop 4)) }
      else v
    let v := v.UpdateHash hp
    (v, valueLen + 4, none)

/-- `UnmarshalBinary` decodes a binary marshaled value. -/
def Value.UnmarshalBinary (hp : hash.Primitive) (v : internal.Value) (data : List Byte) :
    internal.Value × Option GoError :=
  let r := v.SizedUnmarshalBinary hp data
  (r.1, r.2.2)

/-! ## Slices -/

/-- The slice expression `data[lo:hi]`. -/
def slice (data : List Byte) (lo hi : Nat) : List Byte := (data.drop lo).take (hi - lo)

/-- The contents of `data` after `copy(data[lo:hi], src)`. -/
def copyRange (data : List Byte) (lo hi : Nat) (src : List Byte) : List Byte :=
  data.take lo ++ copy (slice data lo hi) src ++ data.drop hi

/-- The contents of `data` after `copy(data[lo:], src)`. -/
def copyFrom (data : List Byte) (lo : Nat) (src : List Byte) : List Byte :=
  data.take lo ++ copy (data.drop lo) src

/-! ## Pointer, InternalNode, LeafNode, Node -/

/-- The struct `LeafNode`; `Value` is a `*Value` and may be nil. -/
structure LeafNode where
  Clean : Bool
  Hash : hash.Hash
  Key : hash.Hash
  Value : Option internal.Value
deriving DecidableEq, Repr

mutual
/-- The struct `Pointer`. `Node` is the interface value (nil when `none`);
`LRU` and `DBInternal` are uninterpreted handles when present. -/
inductive Pointer where
  | mk (Clean : Bool) (Hash : hash.Hash) (Node : Option Node) (LRU : Option Nat)
      (DBInternal : Option Nat)
/-- The struct `InternalNode`; `Left` and `Right` are `*Pointer` and may be
nil. -/
inductive InternalNode where
  | mk (Clean : Bool) (Hash : hash.Hash) (Left : Option Pointer) (Right : Option Pointer)
/-- The interface `Node`: either an `*InternalNode` or a `*LeafNode`. -/
inductive Node where
  | internal (n : InternalNode)
  | leaf (n : LeafNode)
end

/-- The field `p.Clean`. -/
def Pointer.Clean : Pointer → Bool
  | .mk c _ _ _ _ => c

/-- The field `p.Hash`. -/
def Pointer.Hash : Pointer → hash.Hash
  | .mk _ h _ _ _ => h

/-- The field `p.Node`. -/
def Pointer.Node : Pointer → Option internal.Node
  | .mk _ _ n _ _ => n

/-- The field `p.LRU`. -/
def Pointer.LRU : Pointer → Option Nat
  | .mk _ _ _ l _ => l

/-- The field `p.DBInternal`. -/
def Pointer.DBInternal : Pointer → Option Nat
  | .mk _ _ _ _ d => d

/-- The field `n.Clean`. -/
def InternalNode.Clean : InternalNode → Bool
  | .mk c _ _ _ => c

/-- The field `n.Hash`. -/
def InternalNode.Hash : InternalNode → hash.Hash
  | .mk _ h _ _ => h

/-- The field `n.Left`. -/
def InternalNode.Left : InternalNode → Option Pointer
  | .mk _ _ l _ => l

/-- The field `n.Right`. -/
def InternalNode.Right : InternalNode → Option Pointer
  | .mk _ _ _ r => r

/-- The assignment `n.Clean = c`. -/
def InternalNode.setClean (n : InternalNode) (c : Bool) : InternalNode :=
  .mk c n.Hash n.Left n.Right

/-- The assignment `n.Hash = h`. -/
def InternalNode.setHash (n : InternalNode) (h : hash.Hash) : InternalNode :=
  .mk n.Clean h n.Left n.Right

/-- The assignment `n.Left = p`. -/
def InternalNode.setLeft (n : InternalNode) (p : Option Pointer) : InternalNode :=
  .mk n.Clean n.Hash p n.Right

/-- The assignment `n.Right = p`. -/
def InternalNode.setRight (n : InternalNode) (p : Option Pointer) : InternalNode :=
  .mk n.Clean n.Hash n.Left p

/-- `GetHash` returns the pointers's cached hash; the receiver may be nil. -/
def Pointer.GetHash (hp : hash.Primitive) (p : Option Pointer) : hash.Hash :=
  match p with
  | none => hash.Hash.zero.Empty hp
  | some p => p.Hash

/-- `IsClean` returns true if the pointer is clean; the receiver may be nil. -/
def Pointer.IsClean (p : Option Pointer) : Bool :=
  match p with
  | none => true
  | some p => p.Clean

/-! ### InternalNode -/

/-- `UpdateHash` updates the node's cached hash by recomputing it. -/
def InternalNode.UpdateHash (hp : hash.Primitive) (n : InternalNode) : InternalNode :=
  let leftHash := Pointer.GetHash hp n.Left
  let rightHash := Pointer.GetHash hp n.Right
  n.setHash (n.Hash.FromBytes hp [[PrefixInternalNode], leftHash.bytes, rightHash.bytes])

/-- `GetHash` returns the node's cached hash. -/
def InternalNode.GetHash (n : InternalNode) : hash.Hash := n.Hash

/-- `Validate` that the node is internally consistent with the given node
hash. Returns the receiver after the call and the error. -/
def InternalNode.Validate (hp : hash.Primitive) (n : InternalNode) (h : hash.Hash) :
    InternalNode × Option GoError :=
  if !Pointer.IsClean n.Left || !Pointer.IsClean n.Right then
    (n, some GoError.DirtyPointers)
  else
    let n := n.UpdateHash hp
    if !h.Equal n.Hash then
      (n, some (GoError.NodeHashMismatch h.bytes n.Hash.bytes))
    else
      (n, none)

/-- `MarshalBinary` encodes an internal node into binary form. -/
def InternalNode.MarshalBinary (hp : hash.Primitive) (n : InternalNode) :
    List Byte × Option GoError :=
  let leftHash := Pointer.GetHash hp n.Left
  let rightHash := Pointer.GetHash hp n.Right
  let data := make (1 + hash.Size * 2)
  let data := data.set 0 PrefixInternalNode
  let data := copyRange data 1 (1 + hash.Size) leftHash.bytes
  let data := copyFrom data (1 + hash.Size) rightHash.bytes
  (data, none)

/-- `SizedUnmarshalBinary` decodes a binary marshaled internal node. Returns
the receiver after the call, the number of bytes consumed, and the error. -/
def InternalNode.SizedUnmarshalBinary (hp : hash.Primitive) (n : InternalNode)
    (data : List Byte) : InternalNode × Nat × Option GoError :=
  if data.length < 1 + hash.Size * 2 then
    (n, 0, some GoError.ErrMalformed)
  else if data.getD 0 0 ≠ PrefixInternalNode then
    (n, 0, some GoError.ErrMalformed)
  else
    match hash.Hash.zero.UnmarshalBinary (slice data 1 (1 + hash.Size)) with
    | (_, some err) => (n, 0, some err)
    | (leftHash, none) =>
      match hash.Hash.zero.UnmarshalBinary (data.drop (1 + hash.Size)) with
      | (_, some err) => (n, 0, some err)
      | (rightHash, none) =>
        let n := n.setClean true
        let n :=
          if leftHash.IsEmpty hp then n.setLeft none
          else n.setLeft (some (Pointer.mk true leftHash none none none))
        let n :=
          if rightHash.IsEmpty hp then n.setRight none
          else n.setRight (some (Pointer.mk true rightHash none none none))
        let n := n.UpdateHash hp
        (n, 1 + hash.Size * 2, none)

/-- `UnmarshalBinary` decodes a binary marshaled internal node. -/
def InternalNode.UnmarshalBinary (hp : hash.Primitive) (n : InternalNode)
    (data : List Byte) : InternalNode × Option GoError :=
  let r := n.SizedUnmarshalBinary hp data
  (r.1, r.2.2)

/-! ### LeafNode -/

/-- `GetHash` returns the node's cached hash. -/
def LeafNode.GetHash (n : LeafNode) : hash.Hash := n.Hash

/-- `UpdateHash` updates the node's cached hash by recomputing it. Reading
`n.Value.Hash` through a nil `n.Value` panics. -/
def LeafNode.UpdateHash (hp : hash.Primitive) (n : LeafNode) : Exec LeafNode :=
  match n.Value with
  | none => .panic "nil pointer dereference"
  | some v =>
    .ret { n with Hash := n.Hash.FromBytes hp [[PrefixLeafNode], n.Key.bytes, v.Hash.bytes] }

/-- `Validate` that the node is internally consistent with the given node
hash. Returns the receiver after the call and the error; reading
`n.Value.Clean` through a nil `n.Value` panics. -/
def LeafNode.Validate (hp : hash.Primitive) (n : LeafNode) (h : hash.Hash) :
    Exec (LeafNode × Option GoError) :=
  match n.Value with
  | none => .panic "nil pointer dereference"
  | some v =>
    if !v.Clean then
      .ret (n, some GoError.DirtyValue)
    else
      match n.UpdateHash hp with
      | .panic msg => .panic msg
      | .ret n =>
        if !h.Equal n.Hash then
          .ret (n, some (GoError.NodeHashMismatch h.bytes n.Hash.bytes))
        else
          .ret (n, none)

/-- `MarshalBinary` encodes a leaf node into binary form. Calling
`n.Value.MarshalBinary()` through a nil `n.Value` panics when it reads
`v.Value`. -/
def LeafNode.MarshalBinary (n : LeafNode) : Exec (List Byte × Option GoError) :=
  match n.Value with
  | none => .panic "nil pointer dereference"
  | some v =>
    match v.MarshalBinary with
    | (_, some err) => .ret ([], some err)
    | (valueData, none) =>
      let data := make (1 + hash.Size + valueData.length)
      let data := data.set 0 PrefixLeafNode
      let data := copyRange data 1 (1 + hash.Size) n.Key.bytes
      let data := copyFrom data (1 + hash.Size) valueData
      .ret (data, none)

/-- `SizedUnmarshalBinary` decodes a binary marshaled leaf node. Returns the
receiver after the call, the number of bytes consumed, and the error. -/
def LeafNode.SizedUnmarshalBinary (hp : hash.Primitive) (n : LeafNode) (data : List Byte) :
    Exec (LeafNode × Nat × Option GoError) :=
  if data.length < 1 + hash.Size then
    .ret (n, 0, some GoError.ErrMalformed)
  else if data.getD 0 0 ≠ PrefixLeafNode then
    .ret (n, 0, some GoError.ErrMalformed)
  else
    match hash.Hash.zero.UnmarshalBinary (slice data 1 (1 + hash.Size)) with
    | (_, some err) => .ret (n, 0, some err)
    | (key, none) =>
      match internal.Value.zero.SizedUnmarshalBinary hp (data.drop (1 + hash.Size)) with
      | (_, _, some err) => .ret (n, 0, some err)
      | (value, valueSize, none) =>
        let n := { n with Clean := true }
        let n := { n with Key := key }
        let n := { n with Value := some value }
        match n.UpdateHash hp with
        | .panic msg => .panic msg
        | .ret n => .ret (n, 1 + hash.Size + valueSize, none)

/-- `UnmarshalBinary` decodes a binary marshaled leaf node. -/
def LeafNode.UnmarshalBinary (hp : hash.Primitive) (n : LeafNode) (data : List Byte) :
    Exec (LeafNode × Option GoError) :=
  match n.SizedUnmarshalBinary hp data with
  | .panic msg => .panic msg
  | .ret r => .ret (r.1, r.2.2)

/-! ### Validation of values, extraction, equality -/

/-- `Validate` that the value is internally consistent with the given value
hash. Returns the receiver after the call and the error. -/
def Value.Validate (hp : hash.Primitive) (v : internal.Value) (h : hash.Hash) :
    internal.Value × Option GoError :=
  let v := v.UpdateHash hp
  if !h.Equal v.Hash then
    (v, some (GoError.ValueHashMismatch h.bytes v.Hash.bytes))
  else
    (v, none)

/-- Go's `bytes.Equal(a, b)`: the two slices have the same length and the same
bytes; a nil slice is equal to an empty one. -/
def bytesEqual (a b : Option (List Byte)) : Bool := decide (elems a = elems b)

/-- `Equal` compares the value with some other value. -/
def Value.Equal (hp : hash.Primitive) (v : internal.Value) (other : Option (List Byte)) : Bool :=
  if v.Value ≠ none then
    bytesEqual v.Value other
  else
    let otherHash := hash.Hash.zero.FromBytes hp [elems other]
    v.Hash.Equal otherHash

/-- `EqualPointer` compares the value pointer with some other value pointer;
both the receiver and the argument may be nil. -/
def Value.EqualPointer (hp : hash.Primitive) (v other : Option internal.Value) : Bool :=
  match v, other with
  -- `v == nil && other == nil`
  | none, none => true
  -- `v == nil || other == nil`
  | none, some _ => true
  | some _, none => true
  | some v, some other => v.Equal hp other.Value

/-- `Extract` makes a copy of the pointer containing only hash references; the
receiver may be nil. -/
def Pointer.Extract (p : Option Pointer) : Exec (Option Pointer) :=
  match p with
  | none => .ret none
  | some p =>
    if !p.Clean then
      .panic "urkel: extract called on dirty pointer"
    else
      .ret (some (Pointer.mk true p.Hash none none none))

/-- `Extract` makes a copy of the node containing only hash references. The
fields of the composite literal are evaluated in order, `Left` before
`Right`. -/
def InternalNode.Extract (n : InternalNode) : Exec Node :=
  if !n.Clean then
    .panic "urkel: extract called on dirty node"
  else
    match Pointer.Extract n.Left with
    | .panic msg => .panic msg
    | .ret left =>
      match Pointer.Extract n.Right with
      | .panic msg => .panic msg
      | .ret right => .ret (Node.internal (InternalNode.mk true n.Hash left right))

/-- `Equal` compares a node with some other node; the receiver and the
interface value `other` may be nil. -/
def LeafNode.Equal (hp : hash.Primitive) (n : Option LeafNode) (other : Option Node) : Bool :=
  match n, other with
  -- `n == nil && other == nil`
  | none, none => true
  -- `n == nil || other == nil`
  | none, some _ => false
  | some _, none => false
  -- `other.(*LeafNode)` succeeds
  | some n, some (.leaf other) =>
    if n.Clean && other.Clean then
      n.Hash.Equal other.Hash
    else
      n.Key.Equal other.Key && Value.EqualPointer hp n.Value other.Value
  | some _, some (.internal _) => false

mutual
/-- The body of `Pointer.Equal` for a receiver `p` that is not nil; `other`
may be nil, and reading a field through it then panics. -/
def Pointer.equalAt (hp : hash.Primitive) : Pointer → Option Pointer → Exec Bool
  | .mk pClean pHash pNode _ _, other =>
    match pClean, other with
    -- `p.Clean` is true and `other.Clean` is read through nil
    | true, none => .panic "nil pointer dereference"
    -- `p.Clean && other.Clean`
    | true, some (.mk true oHash _ _ _) => .ret (pHash.Equal oHash)
    -- `p.Node != nil && other.Node != nil && p.Node.Equal(other.Node)`
    | _, _ =>
      match pNode with
      | none => .ret false
      | some a =>
        match other with
        | none => .panic "nil pointer dereference"
        | some (.mk _ _ none _ _) => .ret false
        | some (.mk _ _ (some b) _ _) => Node.Equal hp a (some b)
/-- The interface call `n.Equal(other)` on a node `n`, dispatched on the type of
`n`. -/
def Node.Equal (hp : hash.Primitive) : Node → Option Node → Exec Bool
  | .internal a, other => InternalNode.equalAt hp a other
  | .leaf a, other => .ret (LeafNode.Equal hp (some a) other)
/-- The body of `InternalNode.Equal` for a receiver `n` that is not nil. The
calls `n.Left.Equal(other.Left)` and `n.Right.Equal(other.Right)` panic when
the receiver pointer is nil, and the second is only made when the first
returned true. -/
def InternalNode.equalAt (hp : hash.Primitive) : InternalNode → Option Node → Exec Bool
  -- `n == nil || other == nil`
  | _, none => .ret false
  -- `other.(*InternalNode)` succeeds
  | .mk nClean nHash nLeft nRight, some (.internal (.mk oClean oHash oLeft oRight)) =>
    if nClean && oClean then
      .ret (nHash.Equal oHash)
    else
      match (match nLeft with
        | none => Exec.panic "nil pointer dereference"
        | some l => Pointer.equalAt hp l oLeft) with
      | .panic msg => .panic msg
      | .ret false => .ret false
      | .ret true =>
        match nRight with
        | none => .panic "nil pointer dereference"
        | some r => Pointer.equalAt hp r oRight
  | _, some (.leaf _) => .ret false
end

/-- `Equal` compares two pointers for equality. Neither pointer is tested
against nil: reading `p.Clean` through a nil receiver panics. -/
def Pointer.Equal (hp : hash.Primitive) (p other : Option Pointer) : Exec Bool :=
  match p with
  | none => .panic "nil pointer dereference"
  | some p => Pointer.equalAt hp p other

/-- `Equal` compares a node with some other node; the receiver and the
interface value `other` may be nil. -/
def InternalNode.Equal (hp : hash.Primitive) (n : Option InternalNode) (other : Option Node) :
    Exec Bool :=
  match n, other with
  -- `n == nil && other == nil`
  | none, none => .ret true
  -- `n == nil || other == nil`
  | none, some _ => .ret false
  | some n, other => InternalNode.equalAt hp n other

/-! ## Reading the codecs -/

/-- The child pointer that `InternalNode.SizedUnmarshalBinary` stores for a
decoded child hash `h`: nil when `h` is the empty hash, otherwise a clean
pointer that carries only `h`. -/
def decodedChild (hp : hash.Primitive) (h : hash.Hash) : Option Pointer :=
  if h.IsEmpty hp then none else some (Pointer.mk true h none none none)

/-- The payload that `Value.SizedUnmarshalBinary` stores when it decodes the
encoding of a value with payload `s`: the announced length is `uint32(len(s))`,
and the payload is absent when that is zero. -/
def decodedPayload (s : Option (List Byte)) : Option (List Byte) :=
  if uint32 (len s) > 0 then some (copy (make (uint32 (len s))) (elems s)) else none

/-- The digest against which `InternalNode.Validate` compares. -/
def internalDigest (hp : hash.Primitive) (n : InternalNode) : hash.Hash :=
  hp.digest ([PrefixInternalNode] ++ (Pointer.GetHash hp n.Left).bytes
    ++ (Pointer.GetHash hp n.Right).bytes)

/-- The digest against which `LeafNode.Validate` compares, for a leaf with key
`key` and value `v`. -/
def leafDigest (hp : hash.Primitive) (key : hash.Hash) (v : internal.Value) : hash.Hash :=
  hp.digest ([PrefixLeafNode] ++ key.bytes ++ v.Hash.bytes)

/-! ## A concrete hash primitive for evaluating examples -/

/-- The accumulator of the toy digest: the bytes of the input read as digits
`1 .. 256` in base 257 after a leading digit `1`, reduced modulo `2 ^ 256`. -/
def demoSum (data : List Byte) : Nat :=
  data.foldl (fun acc b => (acc * 257 + b.val + 1) % 2 ^ 256) 1

/-- A toy digest used only to evaluate the definitions on concrete inputs:
the 32 little-endian bytes of `demoSum`. -/
def demoDigest (data : List Byte) : hash.Hash :=
  ⟨(List.range 32).map (fun i => byte (demoSum data / 256 ^ i)), by simp [hash.Size]⟩

/-- A toy empty hash constant, distinct from the all-zero hash. -/
def demoEmpty : hash.Hash := ⟨List.replicate 32 0xee, by decide⟩

/-- The toy hash primitive. -/
def demo : hash.Primitive := ⟨demoDigest, demoEmpty⟩

/-- A payload of `2 ^ 32` zero bytes, the shortest whose length does not fit the
32-bit length field. -/
@[irreducible]
def bigPayload : List Byte := List.replicate (2 ^ 32) 0

/-! ## Theorems -/

/-- Copying `n` bytes into a fresh buffer of `n` bytes yields the source. -/
theorem copy_make (n : Nat) (src : List Byte) (h : src.length = n) :
    copy (make n) src = src := by
  simp [copy, make, h]

/-- A `copy` whose source is as long as the destination yields the source. -/
theorem copy_exact (dst src : List Byte) (h : src.length = dst.length) :
    copy dst src = src := by
  rw [copy, ← h]; simp; omega

/-- Writing exactly `hi - lo` bytes into `data[lo:hi]`. -/
theorem copyRange_exact (data : List Byte) (lo hi : Nat) (src : List Byte)
    (hlo : lo ≤ hi) (hhi : hi ≤ data.length) (hsrc : src.length = hi - lo) :
    copyRange data lo hi src = data.take lo ++ src ++ data.drop hi := by
  unfold copyRange
  rw [copy_exact]
  simp [slice]; omega

/-- Writing exactly the remaining bytes into `data[lo:]`. -/
theorem copyFrom_exact (data : List Byte) (lo : Nat) (src : List Byte)
    (hsrc : src.length = data.length - lo) :
    copyFrom data lo src = data.take lo ++ src := by
  unfold copyFrom
  rw [copy_exact]
  simp [hsrc]

/-- Setting the first byte of a fresh buffer. -/
theorem make_set_zero (k : Nat) (b : Byte) : (make (1 + k)).set 0 b = b :: make k := by
  rw [Nat.add_comm]; rfl

/-- The length of a fresh buffer. -/
theorem length_make (k : Nat) : (make k).length = k := by simp [make]

/-- The encoding of an internal node is the tag byte followed by the two
projected child hashes. -/
theorem internalNode_marshal_eq (hp : hash.Primitive) (n : InternalNode) :
    n.MarshalBinary hp =
      ([PrefixInternalNode] ++ (Pointer.GetHash hp n.Left).bytes
        ++ (Pointer.GetHash hp n.Right).bytes, none) := by
  have hl := (Pointer.GetHash hp n.Left).size_eq
  have hr := (Pointer.GetHash hp n.Right).size_eq
  simp only [InternalNode.MarshalBinary, make_set_zero]
  rw [copyRange_exact _ 1 (1 + hash.Size) _ (by omega) (by simp [length_make]; omega) (by omega)]
  rw [copyFrom_exact _ _ _ (by simp [length_make, hl, hr]; omega)]
  simp only [Nat.add_comm 1 Size, List.take_zero, List.nil_append, List.cons_append, List.take_succ_cons, List.take_left' hl, List.singleton_append, List.append_assoc]

/-- A buffer shorter than the length field is rejected and the receiver is
untouched. -/
theorem value_sized_short (hp : hash.Primitive) (v : internal.Value) (buf : List Byte)
    (h : buf.length < 4) :
    v.SizedUnmarshalBinary hp buf = (v, 0, some GoError.ErrMalformed) := by
  simp [Value.SizedUnmarshalBinary, h]

/-- A buffer that holds the length field decodes: the payload is a buffer of
the announced length into which the rest of the input is copied. -/
theorem value_sized_long (hp : hash.Primitive) (v : internal.Value) (buf : List Byte)
    (h : 4 ≤ buf.length) :
    v.SizedUnmarshalBinary hp buf =
      (⟨true,
        hp.digest (if Uint32 (buf.take 4) > 0 then copy (make (Uint32 (buf.take 4))) (buf.drop 4) else []),
        if Uint32 (buf.take 4) > 0 then some (copy (make (Uint32 (buf.take 4))) (buf.drop 4)) else none,
        v.LRU⟩, Uint32 (buf.take 4) + 4, none) := by
  have h4 : ¬ buf.length < 4 := by omega
  simp only [Value.SizedUnmarshalBinary, h4, if_false]
  by_cases hL : Uint32 (buf.take 4) > 0
  · simp [hL, Value.UpdateHash, Hash.FromBytes, elems]
  · simp [hL, Value.UpdateHash, Hash.FromBytes, elems]

/-- C9: `Value.SizedUnmarshalBinary(buf)` returns `ErrMalformed` exactly when
`len(buf) < 4`. Otherwise it succeeds, the consumed count is `4 + L` for the
little-endian u32 `L` in `buf[0:4]`, and the value is left with `Clean == true`,
the payload absent exactly when `L == 0`, and `Hash` the digest of the payload
(of the empty input when the payload is absent). -/
theorem C9_value_sized_unmarshal (hp : hash.Primitive) (v : internal.Value) (buf : List Byte) :
    ((v.SizedUnmarshalBinary hp buf).2.2 = some GoError.ErrMalformed ↔ buf.length < 4) ∧
    (4 ≤ buf.length →
      (v.SizedUnmarshalBinary hp buf).2.2 = none ∧
      (v.SizedUnmarshalBinary hp buf).2.1 = 4 + Uint32 (buf.take 4) ∧
      (v.SizedUnmarshalBinary hp buf).1.Clean = true ∧
      ((v.SizedUnmarshalBinary hp buf).1.Value = none ↔ Uint32 (buf.take 4) = 0) ∧
      (v.SizedUnmarshalBinary hp buf).1.Hash =
        hp.digest (elems (v.SizedUnmarshalBinary hp buf).1.Value)) := by
  constructor
  · by_cases h : buf.length < 4
    · simp [value_sized_short hp v buf h, h]
    · simp [value_sized_long hp v buf (by omega), h]
  · intro h
    rw [value_sized_long hp v buf h]
    by_cases hL : Uint32 (buf.take 4) > 0
    · simp [hL, elems]; omega
    · simp [hL, elems]; omega

/-- The four bytes of `littleEndianU32 v` decode to `v`. -/
theorem Uint32_littleEndianU32 (v : Nat) (hv : v < 2 ^ 32) (rest : List Byte) :
    Uint32 ((littleEndianU32 v ++ rest).take 4) = v := by
  simp [Uint32, littleEndianU32, byte]
  omega

/-- The encoding of a value is its length as a little-endian u32 followed by
the payload bytes. -/
theorem value_marshal_eq (v : internal.Value) :
    v.MarshalBinary = (littleEndianU32 (uint32 (len v.Value)) ++ elems v.Value, none) := by
  cases v with
  | mk c h val lru =>
    cases val with
    | none =>
      simp [Value.MarshalBinary, PutUint32, littleEndianU32, len, elems, make]
    | some b =>
      simp [Value.MarshalBinary, PutUint32, littleEndianU32, len, elems, make, copy]

/-- Decoding exactly the bytes of a hash yields that hash. -/
theorem hash_unmarshal_bytes (h0 h : hash.Hash) :
    h0.UnmarshalBinary h.bytes = (h, none) := by
  simp [Hash.UnmarshalBinary, h.size_eq]

/-- Decoding a hash from a slice of another length fails and leaves the
receiver as it was. -/
theorem hash_unmarshal_wrong_length (h0 : hash.Hash) (data : List Byte)
    (h : data.length ≠ Size) :
    h0.UnmarshalBinary data = (h0, some GoError.HashErrMalformed) := by
  simp [Hash.UnmarshalBinary, h]

/-- Decoding a hash from a slice of `Size` bytes succeeds with those bytes. -/
theorem hash_unmarshal_ok (h0 : hash.Hash) (data : List Byte) (h : data.length = Size) :
    h0.UnmarshalBinary data = (⟨data, h⟩, none) := by
  simp [Hash.UnmarshalBinary, h]

/-- A hash is empty exactly when it is the empty hash constant. -/
theorem hash_isEmpty_iff (hp : hash.Primitive) (h : hash.Hash) :
    h.IsEmpty hp = true ↔ h = hp.emptyHash := by
  simp [Hash.IsEmpty, Hash.Equal]

/-- The projected hash of a decoded child is the decoded hash. -/
theorem GetHash_decodedChild (hp : hash.Primitive) (h : hash.Hash) :
    Pointer.GetHash hp (decodedChild hp h) = h := by
  unfold decodedChild
  by_cases he : h.IsEmpty hp = true
  · rw [if_pos he]
    exact ((hash_isEmpty_iff hp h).mp he).symm
  · rw [if_neg he]
    rfl

/-- A buffer that is too short or does not start with the internal tag is
rejected with `ErrMalformed`, and the receiver is untouched. -/
theorem internalNode_sized_unmarshal_malformed (hp : hash.Primitive) (n : InternalNode)
    (buf : List Byte)
    (h : buf.length < 1 + Size * 2 ∨ buf.getD 0 0 ≠ PrefixInternalNode) :
    n.SizedUnmarshalBinary hp buf = (n, 0, some GoError.ErrMalformed) := by
  unfold InternalNode.SizedUnmarshalBinary
  by_cases h1 : buf.length < 1 + Size * 2
  · rw [if_pos h1]
  · have h2 : buf.getD 0 0 ≠ PrefixInternalNode := by tauto
    rw [if_neg h1, if_pos h2]

/-- The length of `data[lo:hi]` when `hi` is within bounds. -/
theorem length_slice (data : List Byte) (lo hi : Nat) (h : hi ≤ data.length) :
    (slice data lo hi).length = hi - lo := by
  simp [slice]; omega

/-- A buffer with the internal tag and more than `1 + 2 * Size` bytes is
rejected by the decoder of the right child hash. -/
theorem internalNode_sized_unmarshal_trailing (hp : hash.Primitive) (n : InternalNode)
    (buf : List Byte) (hlen : 1 + Size * 2 < buf.length)
    (htag : buf.getD 0 0 = PrefixInternalNode) :
    n.SizedUnmarshalBinary hp buf = (n, 0, some GoError.HashErrMalformed) := by
  unfold InternalNode.SizedUnmarshalBinary
  have h1 : ¬ buf.length < 1 + Size * 2 := by omega
  rw [hash_unmarshal_ok _ _ (by rw [length_slice _ _ _ (by omega)]; omega),
    hash_unmarshal_wrong_length _ (buf.drop (1 + Size)) (by simp; omega)]
  rw [if_neg h1, if_neg (not_not.mpr htag)]

/-- A buffer of exactly `1 + 2 * Size` bytes with the internal tag decodes. -/
theorem internalNode_sized_unmarshal_exact (hp : hash.Primitive) (n : InternalNode)
    (lh rh : hash.Hash) :
    n.SizedUnmarshalBinary hp ([PrefixInternalNode] ++ lh.bytes ++ rh.bytes) =
      (InternalNode.mk true
        (hp.digest ([PrefixInternalNode] ++ lh.bytes ++ rh.bytes))
        (decodedChild hp lh) (decodedChild hp rh), 1 + Size * 2, none) := by
  have hl := lh.size_eq
  have hr := rh.size_eq
  have e1 : slice ([PrefixInternalNode] ++ lh.bytes ++ rh.bytes) 1 (1 + Size) = lh.bytes := by
    simp [slice, List.take_append_of_le_length, hl]
  have e2 : ([PrefixInternalNode] ++ lh.bytes ++ rh.bytes).drop (1 + Size) = rh.bytes := by
    rw [Nat.add_comm 1 Size]
    simp [← hl]
  unfold InternalNode.SizedUnmarshalBinary
  rw [e1, e2, hash_unmarshal_bytes, hash_unmarshal_bytes]
  have hlen : ¬ ([PrefixInternalNode] ++ lh.bytes ++ rh.bytes).length < 1 + Size * 2 := by
    simp [hl, hr]; omega
  simp only [hlen, if_false]
  have htag : ¬ (([PrefixInternalNode] ++ lh.bytes ++ rh.bytes).getD 0 0 ≠ PrefixInternalNode) := by
    simp
  simp only [htag, if_false]
  have hL := GetHash_decodedChild hp lh
  have hR := GetHash_decodedChild hp rh
  have hl2 : (if lh.IsEmpty hp = true then (n.setClean true).setLeft none
      else (n.setClean true).setLeft (some (Pointer.mk true lh none none none)))
      = (n.setClean true).setLeft (decodedChild hp lh) := by
    unfold decodedChild; split <;> rfl
  rw [hl2]
  have hr2 : (if rh.IsEmpty hp = true then
        ((n.setClean true).setLeft (decodedChild hp lh)).setRight none
      else ((n.setClean true).setLeft (decodedChild hp lh)).setRight
        (some (Pointer.mk true rh none none none)))
      = ((n.setClean true).setLeft (decodedChild hp lh)).setRight (decodedChild hp rh) := by
    unfold decodedChild; split <;> rfl
  rw [hr2]
  simp only [InternalNode.UpdateHash, InternalNode.setClean, InternalNode.setLeft,
    InternalNode.setRight, InternalNode.setHash, InternalNode.Left, InternalNode.Right,
    InternalNode.Clean, InternalNode.Hash, Hash.FromBytes, hL, hR]
  simp

/-- Decoding an internal node succeeds exactly on buffers of exactly
`1 + 2 * Size` bytes that start with the internal tag. -/
theorem internalNode_sized_unmarshal_ok_iff (hp : hash.Primitive) (n : InternalNode)
    (buf : List Byte) :
    (n.SizedUnmarshalBinary hp buf).2.2 = none ↔
      buf.length = 1 + Size * 2 ∧ buf.getD 0 0 = PrefixInternalNode := by
  by_cases h : buf.length < 1 + Size * 2 ∨ buf.getD 0 0 ≠ PrefixInternalNode
  · rw [internalNode_sized_unmarshal_malformed hp n buf h]
    constructor
    · intro h0; cases h0
    · rintro ⟨h1, h2⟩
      rcases h with h | h
      · omega
      · exact absurd h2 h
  · have h1 : ¬ buf.length < 1 + Size * 2 := fun hh => h (Or.inl hh)
    have h2 : buf.getD 0 0 = PrefixInternalNode := by
      by_contra hh; exact h (Or.inr hh)
    by_cases h3 : 1 + Size * 2 < buf.length
    · rw [internalNode_sized_unmarshal_trailing hp n buf h3 h2]
      constructor
      · intro h0; cases h0
      · rintro ⟨h4, _⟩; omega
    · have h5 : buf.length = 1 + Size * 2 := by omega
      constructor
      · intro _; exact ⟨h5, h2⟩
      · intro _
        unfold InternalNode.SizedUnmarshalBinary
        rw [if_neg h1, if_neg (not_not.mpr h2),
          hash_unmarshal_ok _ _ (by rw [length_slice _ _ _ (by omega)]; omega),
          hash_unmarshal_ok _ (buf.drop (1 + Size)) (by simp; omega)]

/-- C1 (the code rejects trailing bytes): on the 66-byte buffer that starts
with the internal tag `0x01`, which is long enough and correctly tagged,
`InternalNode.SizedUnmarshalBinary` does not succeed with 65 consumed bytes:
the decoder of the right child hash is handed `data[1+Size:]`, 33 bytes, and
its error is returned with 0 consumed bytes and the receiver untouched. -/
theorem C1_trailing_bytes_rejected (hp : hash.Primitive) (n : InternalNode) :
    1 + 2 * Size ≤ (PrefixInternalNode :: List.replicate 65 (0 : Byte)).length ∧
    (PrefixInternalNode :: List.replicate 65 (0 : Byte)).getD 0 0 = PrefixInternalNode ∧
    n.SizedUnmarshalBinary hp (PrefixInternalNode :: List.replicate 65 (0 : Byte)) =
      (n, 0, some GoError.HashErrMalformed) := by
  refine ⟨by simp [Size], rfl, ?_⟩
  exact internalNode_sized_unmarshal_trailing hp n _ (by simp [Size]) rfl

/-- C8 (amended): the encoding of an internal node is exactly `1 + 2 * Size`
bytes, the tag `0x01`, then the projected hash of the left child, then that of
the right child. The field of a present child is the child's `Hash`, the field
of an absent child is the empty hash constant; with a clean left pointer of
hash `h1` and no right child the output is `[0x01][h1][empty hash]`. -/
theorem C8_internal_marshal_layout (hp : hash.Primitive) (n : InternalNode) :
    (n.MarshalBinary hp).2 = none ∧
    (n.MarshalBinary hp).1.length = 1 + 2 * Size ∧
    (n.MarshalBinary hp).1 =
      [(0x01 : Byte)] ++ (Pointer.GetHash hp n.Left).bytes ++ (Pointer.GetHash hp n.Right).bytes ∧
    slice (n.MarshalBinary hp).1 1 (1 + Size) = (Pointer.GetHash hp n.Left).bytes ∧
    slice (n.MarshalBinary hp).1 (1 + Size) (1 + 2 * Size) = (Pointer.GetHash hp n.Right).bytes ∧
    (n.Left = none → slice (n.MarshalBinary hp).1 1 (1 + Size) = hp.emptyHash.bytes) ∧
    (∀ p, n.Left = some p → slice (n.MarshalBinary hp).1 1 (1 + Size) = p.Hash.bytes) ∧
    (n.Right = none →
      slice (n.MarshalBinary hp).1 (1 + Size) (1 + 2 * Size) = hp.emptyHash.bytes) ∧
    (∀ p, n.Right = some p →
      slice (n.MarshalBinary hp).1 (1 + Size) (1 + 2 * Size) = p.Hash.bytes) ∧
    (∀ c h1, (InternalNode.mk c h1 (some (Pointer.mk true h1 none none none)) none).MarshalBinary hp
      = ([(0x01 : Byte)] ++ h1.bytes ++ hp.emptyHash.bytes, none)) := by
  have hl := (Pointer.GetHash hp n.Left).size_eq
  have hr := (Pointer.GetHash hp n.Right).size_eq
  have e1 : slice ([PrefixInternalNode] ++ (Pointer.GetHash hp n.Left).bytes
      ++ (Pointer.GetHash hp n.Right).bytes) 1 (1 + Size) = (Pointer.GetHash hp n.Left).bytes := by
    simp [slice, List.take_append_of_le_length, hl]
  have e2 : slice ([PrefixInternalNode] ++ (Pointer.GetHash hp n.Left).bytes
      ++ (Pointer.GetHash hp n.Right).bytes) (1 + Size) (1 + 2 * Size)
      = (Pointer.GetHash hp n.Right).bytes := by
    unfold slice
    rw [Nat.add_comm 1 Size]
    simp [← hl]
    omega
  rw [internalNode_marshal_eq]
  refine ⟨rfl, ?_, rfl, e1, e2, ?_, ?_, ?_, ?_, ?_⟩
  · simp [hl, hr]; omega
  · intro h; rw [e1, h]; rfl
  · intro p h; rw [e1, h]; rfl
  · intro h; rw [e2, h]; rfl
  · intro p h; rw [e2, h]; rfl
  · intro c h1; rw [internalNode_marshal_eq]; rfl

/-- C8 (as stated, refuted): an internal node whose left child is present with
the all-zero hash encodes an all-zero left field, so an all-zero field does
not tell that the child is absent. -/
theorem C8_zero_field_with_present_child :
    slice ((InternalNode.mk true Hash.zero
        (some (Pointer.mk true Hash.zero none none none)) none).MarshalBinary demo).1 1 (1 + Size)
      = List.replicate Size (0 : Byte) ∧
    (InternalNode.mk true Hash.zero
        (some (Pointer.mk true Hash.zero none none none)) none).Left ≠ none := by
  refine ⟨?_, by simp [InternalNode.Left]⟩
  rw [internalNode_marshal_eq]
  decide

/-- The encoding of a leaf is the tag byte, the key and the encoding of the
value. -/
theorem leafNode_marshal_eq (n : LeafNode) (v : internal.Value) (hv : n.Value = some v) :
    n.MarshalBinary =
      .ret ([PrefixLeafNode] ++ n.Key.bytes ++ v.MarshalBinary.1, none) := by
  have hk := n.Key.size_eq
  unfold LeafNode.MarshalBinary
  rw [hv]
  simp only [value_marshal_eq, make_set_zero, Nat.add_assoc]
  rw [copyRange_exact _ 1 (1 + Size) _ (by omega) (by simp [length_make]; omega) (by omega)]
  rw [copyFrom_exact _ _ _ (by simp [length_make, hk]; omega)]
  simp only [Nat.add_comm 1 Size, List.take_zero, List.nil_append, List.cons_append,
    List.take_succ_cons, List.take_left' hk, List.singleton_append, List.append_assoc]

/-- A buffer that is too short for the tag and the key, or does not start
with the leaf tag, is rejected with `ErrMalformed`. -/
theorem leafNode_sized_unmarshal_malformed (hp : hash.Primitive) (n : LeafNode)
    (buf : List Byte) (h : buf.length < 1 + Size ∨ buf.getD 0 0 ≠ PrefixLeafNode) :
    n.SizedUnmarshalBinary hp buf = .ret (n, 0, some GoError.ErrMalformed) := by
  unfold LeafNode.SizedUnmarshalBinary
  by_cases h1 : buf.length < 1 + Size
  · rw [if_pos h1]
  · have h2 : buf.getD 0 0 ≠ PrefixLeafNode := by tauto
    rw [if_neg h1, if_pos h2]

/-- A buffer with the leaf tag and the key but fewer than four bytes for the
value length is rejected with `ErrMalformed` by the value decoder. -/
theorem leafNode_sized_unmarshal_short_value (hp : hash.Primitive) (n : LeafNode)
    (buf : List Byte) (h1 : 1 + Size ≤ buf.length) (h2 : buf.getD 0 0 = PrefixLeafNode)
    (h3 : buf.length < 1 + Size + 4) :
    n.SizedUnmarshalBinary hp buf = .ret (n, 0, some GoError.ErrMalformed) := by
  unfold LeafNode.SizedUnmarshalBinary
  rw [if_neg (by omega), if_neg (not_not.mpr h2),
    hash_unmarshal_ok _ _ (by rw [length_slice _ _ _ (by omega)]; omega),
    value_sized_short hp _ _ (by simp; omega)]

/-- A buffer with the leaf tag, the key and at least four more bytes decodes:
the key is `buf[1 : 1+Size]` and the value is decoded from `buf[1+Size:]`. -/
theorem leafNode_sized_unmarshal_ok (hp : hash.Primitive) (n : LeafNode)
    (buf : List Byte) (h1 : 1 + Size + 4 ≤ buf.length) (h2 : buf.getD 0 0 = PrefixLeafNode) :
    n.SizedUnmarshalBinary hp buf =
      .ret (⟨true,
          hp.digest ([PrefixLeafNode] ++ slice buf 1 (1 + Size)
            ++ (internal.Value.zero.SizedUnmarshalBinary hp (buf.drop (1 + Size))).1.Hash.bytes),
          ⟨slice buf 1 (1 + Size), by rw [length_slice _ _ _ (by omega)]; omega⟩,
          some (internal.Value.zero.SizedUnmarshalBinary hp (buf.drop (1 + Size))).1⟩,
        1 + Size + (internal.Value.zero.SizedUnmarshalBinary hp (buf.drop (1 + Size))).2.1,
        none) := by
  unfold LeafNode.SizedUnmarshalBinary
  rw [if_neg (by omega), if_neg (not_not.mpr h2),
    hash_unmarshal_ok _ _ (by rw [length_slice _ _ _ (by omega)]; omega),
    value_sized_long hp _ _ (by simp; omega)]
  simp [LeafNode.UpdateHash, Hash.FromBytes]

/-- C10: `LeafNode.SizedUnmarshalBinary(buf)` fails with `ErrMalformed`, with
0 consumed bytes and the receiver untouched, exactly when
`len(buf) < 1 + Size + 4` or `buf[0]` is not the leaf tag `0x00`. Otherwise it
succeeds: the key is `buf[1 : 1+Size]`, the value is what
`Value.SizedUnmarshalBinary` decodes from `buf[1+Size:]` (which succeeds),
`Clean` is true, `Hash` is `H(0x00 || Key || Value.Hash)`, and the consumed
count is `1 + Size` plus the count that the value decoder returns. -/
theorem C10_leaf_sized_unmarshal (hp : hash.Primitive) (n : LeafNode) (buf : List Byte) :
    ((∃ r, n.SizedUnmarshalBinary hp buf = .ret r ∧ r.2.2 = some GoError.ErrMalformed) ↔
      (buf.length < 1 + Size + 4 ∨ buf.getD 0 0 ≠ PrefixLeafNode)) ∧
    ((buf.length < 1 + Size + 4 ∨ buf.getD 0 0 ≠ PrefixLeafNode) →
      n.SizedUnmarshalBinary hp buf = .ret (n, 0, some GoError.ErrMalformed)) ∧
    (¬ (buf.length < 1 + Size + 4 ∨ buf.getD 0 0 ≠ PrefixLeafNode) →
      ∃ n' value, n.SizedUnmarshalBinary hp buf =
          .ret (n', 1 + Size
            + (internal.Value.zero.SizedUnmarshalBinary hp (buf.drop (1 + Size))).2.1, none) ∧
        (internal.Value.zero.SizedUnmarshalBinary hp (buf.drop (1 + Size))).2.2 = none ∧
        value = (internal.Value.zero.SizedUnmarshalBinary hp (buf.drop (1 + Size))).1 ∧
        n'.Value = some value ∧
        n'.Key.bytes = slice buf 1 (1 + Size) ∧
        n'.Clean = true ∧
        n'.Hash = hp.digest ([(0x00 : Byte)] ++ n'.Key.bytes ++ value.Hash.bytes)) := by
  have bad : (buf.length < 1 + Size + 4 ∨ buf.getD 0 0 ≠ PrefixLeafNode) →
      n.SizedUnmarshalBinary hp buf = .ret (n, 0, some GoError.ErrMalformed) := by
    intro h
    by_cases h' : buf.length < 1 + Size ∨ buf.getD 0 0 ≠ PrefixLeafNode
    · exact leafNode_sized_unmarshal_malformed hp n buf h'
    · have h1 : 1 + Size ≤ buf.length := by
        by_contra hh; exact h' (Or.inl (by omega))
      have h2 : buf.getD 0 0 = PrefixLeafNode := by
        by_contra hh; exact h' (Or.inr hh)
      have h3 : buf.length < 1 + Size + 4 := by
        rcases h with h | h
        · exact h
        · exact absurd h2 h
      exact leafNode_sized_unmarshal_short_value hp n buf h1 h2 h3
  have good : ¬ (buf.length < 1 + Size + 4 ∨ buf.getD 0 0 ≠ PrefixLeafNode) →
      1 + Size + 4 ≤ buf.length ∧ buf.getD 0 0 = PrefixLeafNode := by
    intro h
    constructor
    · by_contra hh; exact h (Or.inl (by omega))
    · by_contra hh; exact h (Or.inr hh)
  refine ⟨⟨?_, ?_⟩, bad, ?_⟩
  · rintro ⟨r, hr, he⟩
    by_contra hcon
    obtain ⟨h1, h2⟩ := good hcon
    rw [leafNode_sized_unmarshal_ok hp n buf h1 h2] at hr
    injection hr with hr
    rw [← hr] at he
    cases he
  · intro h
    exact ⟨_, bad h, rfl⟩
  · intro h
    obtain ⟨h1, h2⟩ := good h
    refine ⟨_, _, leafNode_sized_unmarshal_ok hp n buf h1 h2, ?_, rfl, rfl, rfl, rfl, rfl⟩
    rw [value_sized_long hp _ _ (by simp; omega)]

/-- C10 at a 39-byte buffer: the leaf tag, a key of 32 bytes `7`, and the
value `"hi"`. -/
theorem C10_leaf_sized_unmarshal_witness :
    ∃ n' value, (LeafNode.mk false Hash.zero Hash.zero none).SizedUnmarshalBinary demo
          ((0x00 : Byte) :: (List.replicate 32 7 ++ [2, 0, 0, 0, 0x68, 0x69])) =
          .ret (n', 1 + Size + (internal.Value.zero.SizedUnmarshalBinary demo
            (((0x00 : Byte) :: (List.replicate 32 7 ++ [2, 0, 0, 0, 0x68, 0x69])).drop
              (1 + Size))).2.1, none) ∧
        (internal.Value.zero.SizedUnmarshalBinary demo
            (((0x00 : Byte) :: (List.replicate 32 7 ++ [2, 0, 0, 0, 0x68, 0x69])).drop
              (1 + Size))).2.2 = none ∧
        value = (internal.Value.zero.SizedUnmarshalBinary demo
            (((0x00 : Byte) :: (List.replicate 32 7 ++ [2, 0, 0, 0, 0x68, 0x69])).drop
              (1 + Size))).1 ∧
        n'.Value = some value ∧
        n'.Key.bytes = slice ((0x00 : Byte) :: (List.replicate 32 7 ++ [2, 0, 0, 0, 0x68, 0x69]))
          1 (1 + Size) ∧
        n'.Clean = true ∧
        n'.Hash = demo.digest ([(0x00 : Byte)] ++ n'.Key.bytes ++ value.Hash.bytes) :=
  (C10_leaf_sized_unmarshal demo (LeafNode.mk false Hash.zero Hash.zero none)
    ((0x00 : Byte) :: (List.replicate 32 7 ++ [2, 0, 0, 0, 0x68, 0x69]))).2.2 (by decide)

/-- C2 (the code reports bytes that are not there): on the 5-byte buffer
`[5, 0, 0, 0, 1]`, whose length field announces 5 payload bytes while one is
present, `Value.SizedUnmarshalBinary` succeeds, reports 9 consumed bytes, more
than the buffer holds, and stores the 5-byte payload `[1, 0, 0, 0, 0]`: the one
byte that was present, padded with zero bytes, which is not the one byte that
follows the length field in the buffer. -/
theorem C2_consumed_exceeds_buffer (hp : hash.Primitive) (v : internal.Value) :
    v.SizedUnmarshalBinary hp [5, 0, 0, 0, 1] =
      (⟨true, hp.digest [1, 0, 0, 0, 0], some [1, 0, 0, 0, 0], v.LRU⟩, 9, none) ∧
    ¬ ((v.SizedUnmarshalBinary hp [5, 0, 0, 0, 1]).2.1 ≤ ([5, 0, 0, 0, 1] : List Byte).length) ∧
    (v.SizedUnmarshalBinary hp [5, 0, 0, 0, 1]).1.Value ≠
      some (slice [5, 0, 0, 0, 1] 4 (v.SizedUnmarshalBinary hp [5, 0, 0, 0, 1]).2.1) := by
  have h : v.SizedUnmarshalBinary hp [5, 0, 0, 0, 1] =
      (⟨true, hp.digest [1, 0, 0, 0, 0], some [1, 0, 0, 0, 0], v.LRU⟩, 9, none) := by
    rw [value_sized_long hp v _ (by decide)]
    have hu : Uint32 (List.take 4 ([5, 0, 0, 0, 1] : List Byte)) = 5 := by decide
    rw [hu]
    rfl
  rw [h]
  refine ⟨rfl, ?_, ?_⟩
  · show ¬ (9 ≤ ([5, 0, 0, 0, 1] : List Byte).length)
    decide
  · show some ([1, 0, 0, 0, 0] : List Byte) ≠ some (slice [5, 0, 0, 0, 1] 4 9)
    decide

/-- C3 (a dirty node validates): an internal node with `Clean == false` and no
children passes `Validate` against `H(0x01 || empty || empty)`, and a leaf with
`Clean == false` and a clean value passes `Validate` against
`H(0x00 || Key || Value.Hash)`: neither `Validate` reads the node's own `Clean`
flag. -/
theorem C3_dirty_node_validates (hp : hash.Primitive) :
    (InternalNode.mk false Hash.zero none none).Clean = false ∧
    ((InternalNode.mk false Hash.zero none none).Validate hp
      (hp.digest ([PrefixInternalNode] ++ hp.emptyHash.bytes ++ hp.emptyHash.bytes))).2 = none ∧
    (LeafNode.mk false Hash.zero Hash.zero (some ⟨true, Hash.zero, none, none⟩)).Clean = false ∧
    (LeafNode.mk false Hash.zero Hash.zero (some ⟨true, Hash.zero, none, none⟩)).Validate hp
        (hp.digest ([PrefixLeafNode] ++ Hash.zero.bytes ++ Hash.zero.bytes)) =
      .ret (LeafNode.mk false
          (hp.digest ([PrefixLeafNode] ++ Hash.zero.bytes ++ Hash.zero.bytes)) Hash.zero
          (some ⟨true, Hash.zero, none, none⟩), none) := by
  refine ⟨rfl, ?_, rfl, ?_⟩
  · simp [InternalNode.Validate, Pointer.IsClean, InternalNode.Left, InternalNode.Right,
      InternalNode.UpdateHash, InternalNode.setHash, InternalNode.Hash, Pointer.GetHash,
      Hash.Empty, Hash.FromBytes, Hash.Equal]
  · simp [LeafNode.Validate, LeafNode.UpdateHash, Hash.FromBytes, Hash.Equal]

/-- Two hashes with the same bytes are equal. -/
theorem hash_ext (a b : hash.Hash) (h : a.bytes = b.bytes) : a = b := by
  cases a; cases b; cases h; rfl

/-- Decoding the encoding of any value. -/
theorem value_decode_marshal (hp : hash.Primitive) (v w : internal.Value) :
    w.SizedUnmarshalBinary hp v.MarshalBinary.1 =
      (⟨true, hp.digest (elems (decodedPayload v.Value)), decodedPayload v.Value, w.LRU⟩,
        uint32 (len v.Value) + 4, none) := by
  have hm : v.MarshalBinary.1 = littleEndianU32 (uint32 (len v.Value)) ++ elems v.Value := by
    rw [value_marshal_eq]
  rw [hm, value_sized_long hp w _ (by simp [littleEndianU32])]
  rw [Uint32_littleEndianU32 (uint32 (len v.Value)) (Nat.mod_lt _ (by decide))]
  have hd : (littleEndianU32 (uint32 (len v.Value)) ++ elems v.Value).drop 4 = elems v.Value := by
    simp [littleEndianU32]
  rw [hd]
  unfold decodedPayload
  by_cases h0 : uint32 (len v.Value) > 0
  · simp [h0, elems]
  · simp [h0, elems]

/-- The payload survives the round trip when its length fits 32 bits, except
that an empty payload comes back absent. -/
theorem decodedPayload_of_lt (s : Option (List Byte)) (hlen : len s < 2 ^ 32) :
    decodedPayload s = if len s > 0 then some (elems s) else none := by
  have hu : uint32 (len s) = len s := Nat.mod_eq_of_lt hlen
  have hle : (elems s).length = len s := by cases s <;> rfl
  unfold decodedPayload
  rw [hu, copy_make _ _ hle]

/-- The bytes of the decoded payload are the bytes of the payload when its
length fits 32 bits. -/
theorem elems_decodedPayload (s : Option (List Byte)) (hlen : len s < 2 ^ 32) :
    elems (decodedPayload s) = elems s := by
  rw [decodedPayload_of_lt s hlen]
  by_cases h0 : len s > 0
  · simp [h0, elems]
  · cases s with
    | none => simp [h0, elems]
    | some b =>
      have : b = [] := by simpa [len] using h0
      simp [this, elems, len]

/-- Decoding the encoding of any leaf that has a value. -/
theorem leafNode_decode_marshal (hp : hash.Primitive) (n w : LeafNode) (v : internal.Value) :
    w.SizedUnmarshalBinary hp ([PrefixLeafNode] ++ n.Key.bytes ++ v.MarshalBinary.1) =
      .ret (⟨true,
          hp.digest ([PrefixLeafNode] ++ n.Key.bytes
            ++ (hp.digest (elems (decodedPayload v.Value))).bytes),
          n.Key,
          some ⟨true, hp.digest (elems (decodedPayload v.Value)), decodedPayload v.Value, none⟩⟩,
        1 + Size + (uint32 (len v.Value) + 4), none) := by
  have hk := n.Key.size_eq
  have hm : 4 ≤ v.MarshalBinary.1.length := by
    rw [value_marshal_eq]; simp [littleEndianU32]
  have e1 : slice ([PrefixLeafNode] ++ n.Key.bytes ++ v.MarshalBinary.1) 1 (1 + Size)
      = n.Key.bytes := by
    simp [slice, List.take_append_of_le_length, hk]
  have e2 : ([PrefixLeafNode] ++ n.Key.bytes ++ v.MarshalBinary.1).drop (1 + Size)
      = v.MarshalBinary.1 := by
    rw [Nat.add_comm 1 Size]
    simp [← hk]
  rw [leafNode_sized_unmarshal_ok hp w _ (by simp [hk]; omega) (by simp)]
  simp only [e1, e2, value_decode_marshal]
  rfl

/-- C4 (amended): for a value `v` with `Clean == true` whose payload is absent
or non-empty, shorter than `2 ^ 32` bytes, and whose `Hash` is the digest of
the payload (of the empty input when absent), encoding succeeds and decoding
the encoding into a value `w` succeeds, consumes the whole encoding and leaves
`w` with the payload, `Hash` and `Clean` of `v`; into a fresh `w` the result is
`v` without its LRU handle. -/
theorem C4_value_round_trip (hp : hash.Primitive) (v w : internal.Value)
    (hclean : v.Clean = true) (hpayload : v.Value ≠ some [])
    (hlen : len v.Value < 2 ^ 32) (hhash : v.Hash = hp.digest (elems v.Value)) :
    v.MarshalBinary.2 = none ∧
    w.SizedUnmarshalBinary hp v.MarshalBinary.1 =
      (⟨v.Clean, v.Hash, v.Value, w.LRU⟩, v.MarshalBinary.1.length, none) ∧
    (w.SizedUnmarshalBinary hp v.MarshalBinary.1).1.Value = v.Value ∧
    (w.SizedUnmarshalBinary hp v.MarshalBinary.1).1.Hash = v.Hash ∧
    (w.SizedUnmarshalBinary hp v.MarshalBinary.1).1.Clean = true := by
  have hle : (elems v.Value).length = len v.Value := by
    cases v with
    | mk c h val lru => cases val <;> rfl
  have hu : uint32 (len v.Value) = len v.Value := Nat.mod_eq_of_lt hlen
  have hp2 : decodedPayload v.Value = v.Value := by
    rw [decodedPayload_of_lt _ hlen]
    cases v with
    | mk c h val lru =>
      cases val with
      | none => simp [len]
      | some b =>
        have hb : b ≠ [] := fun hb => hpayload (by simp [hb])
        have : 0 < b.length := List.length_pos.mpr hb
        simp [len, elems, this]
  have hlength : v.MarshalBinary.1.length = uint32 (len v.Value) + 4 := by
    rw [value_marshal_eq]
    simp [littleEndianU32, hle, hu]
  have key : w.SizedUnmarshalBinary hp v.MarshalBinary.1 =
      (⟨v.Clean, v.Hash, v.Value, w.LRU⟩, v.MarshalBinary.1.length, none) := by
    rw [value_decode_marshal, hp2, hlength, hclean, hhash]
  refine ⟨by rw [value_marshal_eq], key, ?_, ?_, ?_⟩
  · rw [key]
  · rw [key]
  · rw [key]; exact hclean

/-- C4 at the value with payload `"hi"`, decoded into a fresh value. -/
theorem C4_value_round_trip_witness :
    (internal.Value.mk true (demo.digest [0x68, 0x69]) (some [0x68, 0x69]) none).MarshalBinary.2
      = none ∧
    internal.Value.zero.SizedUnmarshalBinary demo
        (internal.Value.mk true (demo.digest [0x68, 0x69]) (some [0x68, 0x69]) none).MarshalBinary.1
      = (internal.Value.mk true (demo.digest [0x68, 0x69]) (some [0x68, 0x69]) none, 6, none) := by
  have h := C4_value_round_trip demo
    (internal.Value.mk true (demo.digest [0x68, 0x69]) (some [0x68, 0x69]) none)
    internal.Value.zero rfl (by decide) (by decide) rfl
  exact ⟨h.1, h.2.1⟩

/-- The length of the big payload. -/
theorem length_bigPayload : bigPayload.length = 2 ^ 32 := by
  rw [bigPayload]
  exact List.length_replicate _ _

/-- The length that is written for a present payload. -/
theorem uint32_len_some (b : List Byte) : uint32 (len (some b)) = b.length % 2 ^ 32 := rfl

/-- The encoding of the big payload announces zero bytes, so nothing is
decoded. -/
theorem decodedPayload_bigPayload : decodedPayload (some bigPayload) = none := by
  unfold decodedPayload
  rw [uint32_len_some, length_bigPayload, Nat.mod_self]
  exact if_neg (by decide)

/-- C4 (as stated, refuted): three clean values that do not survive the round
trip. A value known only by its hash (payload absent, `Hash = H([1])`) comes
back with the digest of the empty input; a value with a present but empty
payload comes back with the payload absent; a value with a payload of `2 ^ 32`
bytes, whose length wraps to zero in the 32-bit length field, comes back with
the payload absent. -/
theorem C4_round_trip_changes_value :
    (internal.Value.zero.SizedUnmarshalBinary demo
        (internal.Value.mk true (demo.digest [1]) none none).MarshalBinary.1).1.Hash
      ≠ (internal.Value.mk true (demo.digest [1]) none none).Hash ∧
    (internal.Value.zero.SizedUnmarshalBinary demo
        (internal.Value.mk true (demo.digest []) (some []) none).MarshalBinary.1).1.Value
      ≠ (internal.Value.mk true (demo.digest []) (some []) none).Value ∧
    (internal.Value.zero.SizedUnmarshalBinary demo
        (internal.Value.mk true (demo.digest bigPayload) (some bigPayload) none).MarshalBinary.1).1.Value
      ≠ (internal.Value.mk true (demo.digest bigPayload) (some bigPayload) none).Value := by
  refine ⟨?_, ?_, ?_⟩
  · rw [value_decode_marshal]
    show demo.digest (elems (decodedPayload none)) ≠ demo.digest [1]
    decide
  · rw [value_decode_marshal]
    show decodedPayload (some []) ≠ some []
    decide
  · rw [value_decode_marshal]
    show decodedPayload (some bigPayload) ≠ some bigPayload
    rw [decodedPayload_bigPayload]
    exact fun h => nomatch h

/-- The child stored for the empty hash constant is nil. -/
theorem decodedChild_empty (hp : hash.Primitive) : decodedChild hp hp.emptyHash = none := by
  unfold decodedChild
  rw [if_pos ((hash_isEmpty_iff hp _).mpr rfl)]

/-- The child stored for any other hash is a clean pointer with that hash and
nothing else. -/
theorem decodedChild_of_ne (hp : hash.Primitive) (h : hash.Hash) (hne : h ≠ hp.emptyHash) :
    decodedChild hp h = some (Pointer.mk true h none none none) := by
  unfold decodedChild
  rw [if_neg (fun he => hne ((hash_isEmpty_iff hp _).mp he))]

/-- Decoding the encoding of any internal node. -/
theorem internalNode_decode_marshal (hp : hash.Primitive) (n w : InternalNode) :
    w.SizedUnmarshalBinary hp (n.MarshalBinary hp).1 =
      (InternalNode.mk true
        (hp.digest ([PrefixInternalNode] ++ (Pointer.GetHash hp n.Left).bytes
          ++ (Pointer.GetHash hp n.Right).bytes))
        (decodedChild hp (Pointer.GetHash hp n.Left))
        (decodedChild hp (Pointer.GetHash hp n.Right)), 1 + Size * 2, none) := by
  have hm : (n.MarshalBinary hp).1 = [PrefixInternalNode] ++ (Pointer.GetHash hp n.Left).bytes
      ++ (Pointer.GetHash hp n.Right).bytes := by
    rw [internalNode_marshal_eq]
  rw [hm, internalNode_sized_unmarshal_exact]

/-- C5 (amended): for an internal node `n` with `Clean == true` whose `Hash`
is `H(0x01 || GetHash(Left) || GetHash(Right))`, decoding the encoding of `n`
succeeds and yields a node with the same projected child hashes, the same
`Hash` and `Clean == true`; an absent child stays absent, and a present child
whose hash is not the empty hash constant comes back as a present pointer with
`Clean == true`, the same `Hash`, no resident node and no handles. -/
theorem C5_internal_round_trip (hp : hash.Primitive) (n w : InternalNode)
    (_hclean : n.Clean = true)
    (hhash : n.Hash = hp.digest ([(0x01 : Byte)] ++ (Pointer.GetHash hp n.Left).bytes
      ++ (Pointer.GetHash hp n.Right).bytes)) :
    (n.MarshalBinary hp).2 = none ∧
    ∃ n', w.SizedUnmarshalBinary hp (n.MarshalBinary hp).1 = (n', 1 + 2 * Size, none) ∧
      Pointer.GetHash hp n'.Left = Pointer.GetHash hp n.Left ∧
      Pointer.GetHash hp n'.Right = Pointer.GetHash hp n.Right ∧
      n'.Hash = n.Hash ∧
      n'.Clean = true ∧
      (n.Left = none → n'.Left = none) ∧
      (n.Right = none → n'.Right = none) ∧
      (∀ p, n.Left = some p → p.Hash ≠ hp.emptyHash →
        n'.Left = some (Pointer.mk true p.Hash none none none)) ∧
      (∀ p, n.Right = some p → p.Hash ≠ hp.emptyHash →
        n'.Right = some (Pointer.mk true p.Hash none none none)) := by
  refine ⟨by rw [internalNode_marshal_eq],
    InternalNode.mk true
      (hp.digest ([PrefixInternalNode] ++ (Pointer.GetHash hp n.Left).bytes
        ++ (Pointer.GetHash hp n.Right).bytes))
      (decodedChild hp (Pointer.GetHash hp n.Left))
      (decodedChild hp (Pointer.GetHash hp n.Right)), ?_, ?_, ?_, ?_, ?_, ?_, ?_, ?_, ?_⟩
  · rw [internalNode_decode_marshal, Nat.mul_comm]
  · exact GetHash_decodedChild hp _
  · exact GetHash_decodedChild hp _
  · exact hhash.symm
  · rfl
  · intro h
    show decodedChild hp (Pointer.GetHash hp n.Left) = none
    rw [h]; exact decodedChild_empty hp
  · intro h
    show decodedChild hp (Pointer.GetHash hp n.Right) = none
    rw [h]; exact decodedChild_empty hp
  · intro p h hne
    show decodedChild hp (Pointer.GetHash hp n.Left) = _
    rw [h]; exact decodedChild_of_ne hp _ hne
  · intro p h hne
    show decodedChild hp (Pointer.GetHash hp n.Right) = _
    rw [h]; exact decodedChild_of_ne hp _ hne

set_option maxRecDepth 100000 in
/-- C5 at the node with a clean left pointer of hash `H([7])` and no right
child, decoded into an empty node. -/
theorem C5_internal_round_trip_witness :
    ∃ n', (InternalNode.mk false Hash.zero none none).SizedUnmarshalBinary demo
        ((InternalNode.mk true
          (demo.digest ([(0x01 : Byte)] ++ (demo.digest [7]).bytes ++ demo.emptyHash.bytes))
          (some (Pointer.mk true (demo.digest [7]) none none none)) none).MarshalBinary demo).1
        = (n', 1 + 2 * Size, none) ∧
      n'.Hash = demo.digest ([(0x01 : Byte)] ++ (demo.digest [7]).bytes ++ demo.emptyHash.bytes) ∧
      n'.Left = some (Pointer.mk true (demo.digest [7]) none none none) ∧
      n'.Right = none := by
  obtain ⟨n', h1, _, _, h4, _, _, h7, h8, _⟩ := (C5_internal_round_trip demo
    (InternalNode.mk true
      (demo.digest ([(0x01 : Byte)] ++ (demo.digest [7]).bytes ++ demo.emptyHash.bytes))
      (some (Pointer.mk true (demo.digest [7]) none none none)) none)
    (InternalNode.mk false Hash.zero none none) rfl rfl).2
  exact ⟨n', h1, h4, h8 _ rfl (by decide), h7 rfl⟩

set_option maxRecDepth 100000 in
/-- C5 (as stated, refuted): a node with `Clean == true` whose cached `Hash`
is not the digest of its child hashes comes back with the recomputed digest;
and a present left child that carries the empty hash constant comes back
absent. -/
theorem C5_round_trip_changes_node :
    ((InternalNode.mk false Hash.zero none none).SizedUnmarshalBinary demo
        ((InternalNode.mk true Hash.zero none none).MarshalBinary demo).1).1.Hash
      ≠ (InternalNode.mk true Hash.zero none none).Hash ∧
    (InternalNode.mk true
        (demo.digest ([(0x01 : Byte)] ++ demo.emptyHash.bytes ++ demo.emptyHash.bytes))
        (some (Pointer.mk true demo.emptyHash none none none)) none).Left ≠ none ∧
    ((InternalNode.mk false Hash.zero none none).SizedUnmarshalBinary demo
        ((InternalNode.mk true
          (demo.digest ([(0x01 : Byte)] ++ demo.emptyHash.bytes ++ demo.emptyHash.bytes))
          (some (Pointer.mk true demo.emptyHash none none none)) none).MarshalBinary demo).1).1.Left
      = none := by
  refine ⟨?_, ?_, ?_⟩
  · rw [internalNode_decode_marshal]
    decide
  · exact fun h => nomatch h
  · rw [internalNode_decode_marshal]
    exact decodedChild_empty demo

/-- The length of the encoding of a value whose payload length fits 32 bits. -/
theorem length_value_marshal (v : internal.Value) :
    v.MarshalBinary.1.length = 4 + len v.Value := by
  have hle : (elems v.Value).length = len v.Value := by
    cases v with
    | mk c h val lru => cases val <;> rfl
  rw [value_marshal_eq]
  simp [littleEndianU32, hle]
  omega

/-- C6 (amended): for a leaf `n` with `Clean == true` and a value `v` whose
payload is shorter than `2 ^ 32` bytes, where `v.Hash` is the digest of the
payload and `n.Hash` is `H(0x00 || Key || v.Hash)`, encoding succeeds and
decoding the encoding succeeds, consumes all of it and yields a leaf with the
same `Hash`, the same `Key` and a value with the same payload bytes. -/
theorem C6_leaf_round_trip (hp : hash.Primitive) (n w : LeafNode) (v : internal.Value)
    (_hclean : n.Clean = true) (hv : n.Value = some v) (hlen : len v.Value < 2 ^ 32)
    (hvhash : v.Hash = hp.digest (elems v.Value))
    (hhash : n.Hash = hp.digest ([(0x00 : Byte)] ++ n.Key.bytes ++ v.Hash.bytes)) :
    ∃ data n' v', n.MarshalBinary = .ret (data, none) ∧
      w.SizedUnmarshalBinary hp data = .ret (n', data.length, none) ∧
      n'.Hash = n.Hash ∧ n'.Key = n.Key ∧ n'.Value = some v' ∧
      elems v'.Value = elems v.Value := by
  have hk := n.Key.size_eq
  have hu : uint32 (len v.Value) = len v.Value := Nat.mod_eq_of_lt hlen
  have hd := leafNode_decode_marshal hp n w v
  have hl : 1 + Size + (uint32 (len v.Value) + 4)
      = ([PrefixLeafNode] ++ n.Key.bytes ++ v.MarshalBinary.1).length := by
    simp only [List.length_append, List.length_singleton, hk, length_value_marshal, hu]
    omega
  rw [hl] at hd
  refine ⟨_, _, _, leafNode_marshal_eq n v hv, hd, ?_, rfl, rfl, ?_⟩
  · show hp.digest _ = n.Hash
    rw [elems_decodedPayload _ hlen, hhash, hvhash]
    rfl
  · exact elems_decodedPayload _ hlen

set_option maxRecDepth 100000 in
/-- C6 at the leaf with key `H("k")` and payload `"hi"`. -/
theorem C6_leaf_round_trip_witness :
    ∃ data n' v',
      (LeafNode.mk true
        (demo.digest ([(0x00 : Byte)] ++ (demo.digest [0x6b]).bytes
          ++ (demo.digest [0x68, 0x69]).bytes))
        (demo.digest [0x6b])
        (some ⟨true, demo.digest [0x68, 0x69], some [0x68, 0x69], none⟩)).MarshalBinary
        = .ret (data, none) ∧
      (LeafNode.mk false Hash.zero Hash.zero none).SizedUnmarshalBinary demo data
        = .ret (n', data.length, none) ∧
      n'.Hash = demo.digest ([(0x00 : Byte)] ++ (demo.digest [0x6b]).bytes
          ++ (demo.digest [0x68, 0x69]).bytes) ∧
      n'.Key = demo.digest [0x6b] ∧ n'.Value = some v' ∧
      elems v'.Value = [0x68, 0x69] :=
  C6_leaf_round_trip demo
    (LeafNode.mk true
      (demo.digest ([(0x00 : Byte)] ++ (demo.digest [0x6b]).bytes
        ++ (demo.digest [0x68, 0x69]).bytes))
      (demo.digest [0x6b])
      (some ⟨true, demo.digest [0x68, 0x69], some [0x68, 0x69], none⟩))
    (LeafNode.mk false Hash.zero Hash.zero none)
    ⟨true, demo.digest [0x68, 0x69], some [0x68, 0x69], none⟩
    rfl rfl (by decide) rfl rfl

set_option maxRecDepth 100000 in
/-- C6 (as stated, refuted): three clean leaves that do not survive the round
trip. A leaf whose value is known only by its hash `H([1])`, with a consistent
leaf hash, comes back with another `Hash`; a leaf with `Clean == true` whose
cached `Hash` is not the digest of its contents comes back with the recomputed
digest; a leaf whose payload has `2 ^ 32` bytes comes back with no payload
bytes. -/
theorem C6_round_trip_changes_leaf :
    (∃ data n',
      (LeafNode.mk true
        (demo.digest ([(0x00 : Byte)] ++ (demo.digest [0x6b]).bytes ++ (demo.digest [1]).bytes))
        (demo.digest [0x6b]) (some ⟨true, demo.digest [1], none, none⟩)).MarshalBinary
        = .ret (data, none) ∧
      (LeafNode.mk false Hash.zero Hash.zero none).SizedUnmarshalBinary demo data
        = .ret (n', 37, none) ∧
      n'.Hash ≠
        demo.digest ([(0x00 : Byte)] ++ (demo.digest [0x6b]).bytes ++ (demo.digest [1]).bytes)) ∧
    (∃ data n',
      (LeafNode.mk true Hash.zero (demo.digest [0x6b])
        (some ⟨true, demo.digest [0x68, 0x69], some [0x68, 0x69], none⟩)).MarshalBinary
        = .ret (data, none) ∧
      (LeafNode.mk false Hash.zero Hash.zero none).SizedUnmarshalBinary demo data
        = .ret (n', 39, none) ∧
      n'.Hash ≠ Hash.zero) ∧
    (∃ data n' c v',
      (LeafNode.mk true
        (demo.digest ([(0x00 : Byte)] ++ (demo.digest [0x6b]).bytes
          ++ (demo.digest bigPayload).bytes))
        (demo.digest [0x6b])
        (some ⟨true, demo.digest bigPayload, some bigPayload, none⟩)).MarshalBinary
        = .ret (data, none) ∧
      (LeafNode.mk false Hash.zero Hash.zero none).SizedUnmarshalBinary demo data
        = .ret (n', c, none) ∧
      n'.Value = some v' ∧ elems v'.Value ≠ bigPayload) := by
  refine ⟨⟨_, _, leafNode_marshal_eq _ _ rfl, leafNode_decode_marshal demo _ _ _, ?_⟩,
    ⟨_, _, leafNode_marshal_eq _ _ rfl, leafNode_decode_marshal demo _ _ _, ?_⟩,
    ⟨_, _, _, _, leafNode_marshal_eq _ _ rfl, leafNode_decode_marshal demo _ _ _, rfl, ?_⟩⟩
  · decide
  · decide
  · show elems (decodedPayload (some bigPayload)) ≠ bigPayload
    rw [decodedPayload_bigPayload]
    intro h
    have h2 := congrArg List.length h
    rw [length_bigPayload] at h2
    exact absurd h2 (by decide)

/-- C7 (amended): for a leaf `n` with a value whose payload has length
`L < 2 ^ 32`, the encoding is exactly `[0x00] ++ Key ++ le32(L) ++ payload`
(with `Key` of `Size` bytes), and decoding that buffer succeeds with a consumed
count equal to the length of the buffer. For the leaf with key `H("k")` and
payload `"hi"` the buffer is `[0x00][32-byte key][02 00 00 00][68 69]`, its
length is 39 and the consumed count is 39. -/
theorem C7_leaf_marshal_layout (hp : hash.Primitive) :
    (∀ (n w : LeafNode) (v : internal.Value), n.Value = some v → len v.Value < 2 ^ 32 →
      n.MarshalBinary = .ret ([(0x00 : Byte)] ++ n.Key.bytes ++ littleEndianU32 (len v.Value)
        ++ elems v.Value, none) ∧
      n.Key.bytes.length = Size ∧
      ∃ n', w.SizedUnmarshalBinary hp ([(0x00 : Byte)] ++ n.Key.bytes
            ++ littleEndianU32 (len v.Value) ++ elems v.Value) =
          .ret (n', ([(0x00 : Byte)] ++ n.Key.bytes ++ littleEndianU32 (len v.Value)
            ++ elems v.Value).length, none)) ∧
    (∀ (w : LeafNode) (c vc : Bool) (h vh : hash.Hash) (lru : Option Nat),
      (LeafNode.mk c h (hp.digest [0x6b]) (some ⟨vc, vh, some [0x68, 0x69], lru⟩)).MarshalBinary
        = .ret ([(0x00 : Byte)] ++ (hp.digest [0x6b]).bytes ++ [0x02, 0x00, 0x00, 0x00]
            ++ [0x68, 0x69], none) ∧
      ([(0x00 : Byte)] ++ (hp.digest [0x6b]).bytes ++ [0x02, 0x00, 0x00, 0x00]
            ++ [0x68, 0x69]).length = 39 ∧
      ∃ n', w.SizedUnmarshalBinary hp ([(0x00 : Byte)] ++ (hp.digest [0x6b]).bytes
            ++ [0x02, 0x00, 0x00, 0x00] ++ [0x68, 0x69]) = .ret (n', 39, none)) := by
  have general : ∀ (n w : LeafNode) (v : internal.Value), n.Value = some v →
      len v.Value < 2 ^ 32 →
      n.MarshalBinary = .ret ([(0x00 : Byte)] ++ n.Key.bytes ++ littleEndianU32 (len v.Value)
        ++ elems v.Value, none) ∧
      n.Key.bytes.length = Size ∧
      ∃ n', w.SizedUnmarshalBinary hp ([(0x00 : Byte)] ++ n.Key.bytes
            ++ littleEndianU32 (len v.Value) ++ elems v.Value) =
          .ret (n', ([(0x00 : Byte)] ++ n.Key.bytes ++ littleEndianU32 (len v.Value)
            ++ elems v.Value).length, none) := by
    intro n w v hv hlen
    have hk := n.Key.size_eq
    have hu : uint32 (len v.Value) = len v.Value := Nat.mod_eq_of_lt hlen
    have hm : v.MarshalBinary.1 = littleEndianU32 (len v.Value) ++ elems v.Value := by
      rw [value_marshal_eq, hu]
    have hd := leafNode_decode_marshal hp n w v
    have hl : 1 + Size + (uint32 (len v.Value) + 4)
        = ([PrefixLeafNode] ++ n.Key.bytes ++ v.MarshalBinary.1).length := by
      simp only [List.length_append, List.length_singleton, hk, length_value_marshal, hu]
      omega
    rw [hl] at hd
    have hmar := leafNode_marshal_eq n v hv
    rw [hm] at hd hmar
    simp only [← List.append_assoc] at hd hmar
    exact ⟨hmar, hk, _, hd⟩
  refine ⟨general, ?_⟩
  intro w c vc h vh lru
  obtain ⟨h1, _, n', h3⟩ := general
    (LeafNode.mk c h (hp.digest [0x6b]) (some ⟨vc, vh, some [0x68, 0x69], lru⟩)) w
    ⟨vc, vh, some [0x68, 0x69], lru⟩ rfl (show (2 : Nat) < 2 ^ 32 by decide)
  have e : littleEndianU32 (len (some ([0x68, 0x69] : List Byte))) = [0x02, 0x00, 0x00, 0x00] := by
    decide
  have hlen39 : ([(0x00 : Byte)] ++ (hp.digest [0x6b]).bytes ++ [0x02, 0x00, 0x00, 0x00]
            ++ [0x68, 0x69]).length = 39 := by
    simp [(hp.digest [0x6b]).size_eq, Size]
  have h1' : (LeafNode.mk c h (hp.digest [0x6b])
        (some ⟨vc, vh, some [0x68, 0x69], lru⟩)).MarshalBinary
      = .ret ([(0x00 : Byte)] ++ (hp.digest [0x6b]).bytes
          ++ littleEndianU32 (len (some ([0x68, 0x69] : List Byte))) ++ [0x68, 0x69], none) := h1
  have h3' : w.SizedUnmarshalBinary hp ([(0x00 : Byte)] ++ (hp.digest [0x6b]).bytes
          ++ littleEndianU32 (len (some ([0x68, 0x69] : List Byte))) ++ [0x68, 0x69]) =
        .ret (n', ([(0x00 : Byte)] ++ (hp.digest [0x6b]).bytes
          ++ littleEndianU32 (len (some ([0x68, 0x69] : List Byte))) ++ [0x68, 0x69]).length,
          none) := h3
  rw [e] at h1' h3'
  rw [hlen39] at h3'
  exact ⟨h1', hlen39, n', h3'⟩

/-- C7 at the toy primitive, for the leaf with key `H("k")` and payload
`"hi"`. -/
theorem C7_leaf_marshal_layout_witness :
    (LeafNode.mk true Hash.zero (demo.digest [0x6b])
        (some ⟨true, Hash.zero, some [0x68, 0x69], none⟩)).MarshalBinary
      = .ret ([(0x00 : Byte)] ++ (demo.digest [0x6b]).bytes ++ [0x02, 0x00, 0x00, 0x00]
          ++ [0x68, 0x69], none) ∧
    ([(0x00 : Byte)] ++ (demo.digest [0x6b]).bytes ++ [0x02, 0x00, 0x00, 0x00]
          ++ [0x68, 0x69]).length = 39 ∧
    ∃ n', (LeafNode.mk false Hash.zero Hash.zero none).SizedUnmarshalBinary demo
        ([(0x00 : Byte)] ++ (demo.digest [0x6b]).bytes
          ++ [0x02, 0x00, 0x00, 0x00] ++ [0x68, 0x69]) = .ret (n', 39, none) :=
  (C7_leaf_marshal_layout demo).2 (LeafNode.mk false Hash.zero Hash.zero none)
    true true Hash.zero Hash.zero none

/-- C7 (as stated, refuted): the encoding of the leaf with key `H("k")` and
payload `"hi"` has 39 bytes (1 + 32 + 4 + 2), not 38, and decoding it consumes
39 bytes, not 38. -/
theorem C7_example_is_39_bytes :
    ∃ data n' consumed,
      (LeafNode.mk true Hash.zero (demo.digest [0x6b])
        (some ⟨true, Hash.zero, some [0x68, 0x69], none⟩)).MarshalBinary = .ret (data, none) ∧
      (LeafNode.mk false Hash.zero Hash.zero none).SizedUnmarshalBinary demo data
        = .ret (n', consumed, none) ∧
      data.length ≠ 38 ∧ consumed ≠ 38 ∧ data.length = 39 ∧ consumed = 39 := by
  refine ⟨_, _, _, leafNode_marshal_eq _ _ rfl, leafNode_decode_marshal demo _ _ _, ?_, ?_, ?_, ?_⟩
  · rw [List.length_append, length_value_marshal, List.length_append, hash.Hash.size_eq]
    decide
  · decide
  · rw [List.length_append, length_value_marshal, List.length_append, hash.Hash.size_eq]
    decide
  · decide

/-- C9 at the 6-byte encoding of the payload `"hi"`. -/
theorem C9_value_sized_unmarshal_witness :
    (internal.Value.zero.SizedUnmarshalBinary demo [2, 0, 0, 0, 0x68, 0x69]).2.2 = none ∧
    (internal.Value.zero.SizedUnmarshalBinary demo [2, 0, 0, 0, 0x68, 0x69]).2.1
      = 4 + Uint32 (([2, 0, 0, 0, 0x68, 0x69] : List Byte).take 4) ∧
    (internal.Value.zero.SizedUnmarshalBinary demo [2, 0, 0, 0, 0x68, 0x69]).1.Clean = true ∧
    ((internal.Value.zero.SizedUnmarshalBinary demo [2, 0, 0, 0, 0x68, 0x69]).1.Value = none ↔
      Uint32 (([2, 0, 0, 0, 0x68, 0x69] : List Byte).take 4) = 0) ∧
    (internal.Value.zero.SizedUnmarshalBinary demo [2, 0, 0, 0, 0x68, 0x69]).1.Hash =
      demo.digest (elems (internal.Value.zero.SizedUnmarshalBinary demo
        [2, 0, 0, 0, 0x68, 0x69]).1.Value) :=
  (C9_value_sized_unmarshal demo internal.Value.zero [2, 0, 0, 0, 0x68, 0x69]).2 (by decide)

/-- The digest that `InternalNode.UpdateHash` stores. -/
theorem internalNode_updateHash_eq (hp : hash.Primitive) (n : InternalNode) :
    n.UpdateHash hp = InternalNode.mk n.Clean
      (hp.digest ([PrefixInternalNode] ++ (Pointer.GetHash hp n.Left).bytes
        ++ (Pointer.GetHash hp n.Right).bytes)) n.Left n.Right := by
  cases n with
  | mk c h l r =>
    simp [InternalNode.UpdateHash, InternalNode.setHash, InternalNode.Clean, InternalNode.Left,
      InternalNode.Right, Hash.FromBytes]

/-- The digest that `LeafNode.UpdateHash` stores when the leaf has a value. -/
theorem leafNode_updateHash_eq (hp : hash.Primitive) (n : LeafNode) (v : internal.Value)
    (hv : n.Value = some v) :
    n.UpdateHash hp = .ret { n with
      Hash := hp.digest ([PrefixLeafNode] ++ n.Key.bytes ++ v.Hash.bytes) } := by
  simp [LeafNode.UpdateHash, hv, Hash.FromBytes]

/-- The digest that `Value.UpdateHash` stores. -/
theorem value_updateHash_eq (hp : hash.Primitive) (v : internal.Value) :
    v.UpdateHash hp = { v with Hash := hp.digest (elems v.Value) } := by
  simp [Value.UpdateHash, Hash.FromBytes]

/-- C11: `UpdateHash` writes only the cached `Hash` and sets it to the
domain-separated digest of the current contents. For an internal node the
digest is `H(0x01 || project(Left) || project(Right))`, where `project` of a
present pointer is its `Hash` and of an absent one the empty hash constant; for
a leaf (with a value) it is `H(0x00 || Key || Value.Hash)`; for a value it is
`H(bytes)`, the digest of the empty input when the payload is absent. `Clean`
and all other fields stay, and a second `UpdateHash` changes nothing. -/
theorem C11_update_hash (hp : hash.Primitive) :
    (∀ n : InternalNode,
      n.UpdateHash hp = InternalNode.mk n.Clean
        (hp.digest ([(0x01 : Byte)] ++ (Pointer.GetHash hp n.Left).bytes
          ++ (Pointer.GetHash hp n.Right).bytes)) n.Left n.Right ∧
      (n.UpdateHash hp).Clean = n.Clean ∧
      (n.UpdateHash hp).Left = n.Left ∧
      (n.UpdateHash hp).Right = n.Right ∧
      (n.UpdateHash hp).UpdateHash hp = n.UpdateHash hp) ∧
    (∀ p : Pointer, Pointer.GetHash hp (some p) = p.Hash) ∧
    Pointer.GetHash hp none = hp.emptyHash ∧
    (∀ (n : LeafNode) (v : internal.Value), n.Value = some v →
      n.UpdateHash hp = .ret (LeafNode.mk n.Clean
        (hp.digest ([(0x00 : Byte)] ++ n.Key.bytes ++ v.Hash.bytes)) n.Key n.Value) ∧
      (LeafNode.mk n.Clean
        (hp.digest ([(0x00 : Byte)] ++ n.Key.bytes ++ v.Hash.bytes)) n.Key n.Value).UpdateHash hp
        = .ret (LeafNode.mk n.Clean
          (hp.digest ([(0x00 : Byte)] ++ n.Key.bytes ++ v.Hash.bytes)) n.Key n.Value)) ∧
    (∀ v : internal.Value,
      v.UpdateHash hp = internal.Value.mk v.Clean (hp.digest (elems v.Value)) v.Value v.LRU ∧
      (v.UpdateHash hp).UpdateHash hp = v.UpdateHash hp) := by
  refine ⟨?_, fun _ => rfl, rfl, ?_, ?_⟩
  · intro n
    have h := internalNode_updateHash_eq hp n
    refine ⟨h, ?_, ?_, ?_, ?_⟩
    · rw [h]; rfl
    · rw [h]; rfl
    · rw [h]; rfl
    · rw [h, internalNode_updateHash_eq]; rfl
  · intro n v hv
    refine ⟨leafNode_updateHash_eq hp n v hv, ?_⟩
    simp [LeafNode.UpdateHash, hv, Hash.FromBytes, PrefixLeafNode]
  · intro v
    refine ⟨value_updateHash_eq hp v, ?_⟩
    rw [value_updateHash_eq, value_updateHash_eq]

/-- C11 at the leaf with key `H("k")` and value `"hi"`, whose cached hash is
stale. -/
theorem C11_update_hash_witness :
    (LeafNode.mk false Hash.zero (demo.digest [0x6b])
      (some ⟨true, demo.digest [0x68, 0x69], some [0x68, 0x69], none⟩)).UpdateHash demo
      = .ret (LeafNode.mk false
          (demo.digest ([(0x00 : Byte)] ++ (demo.digest [0x6b]).bytes
            ++ (demo.digest [0x68, 0x69]).bytes))
          (demo.digest [0x6b])
          (some ⟨true, demo.digest [0x68, 0x69], some [0x68, 0x69], none⟩)) :=
  ((C11_update_hash demo).2.2.2.1
    (LeafNode.mk false Hash.zero (demo.digest [0x6b])
      (some ⟨true, demo.digest [0x68, 0x69], some [0x68, 0x69], none⟩))
    ⟨true, demo.digest [0x68, 0x69], some [0x68, 0x69], none⟩ rfl).1

/-- The three outcomes of `InternalNode.Validate`. -/
theorem internalNode_validate_eq (hp : hash.Primitive) (n : InternalNode) (h : hash.Hash) :
    n.Validate hp h =
      if Pointer.IsClean n.Left = false ∨ Pointer.IsClean n.Right = false then
        (n, some GoError.DirtyPointers)
      else if h = internalDigest hp n then
        (n.UpdateHash hp, none)
      else
        (n.UpdateHash hp,
          some (GoError.NodeHashMismatch h.bytes (internalDigest hp n).bytes)) := by
  have hu : (n.UpdateHash hp).Hash = internalDigest hp n := by
    rw [internalNode_updateHash_eq]; rfl
  unfold InternalNode.Validate
  by_cases hd : Pointer.IsClean n.Left = false ∨ Pointer.IsClean n.Right = false
  · rw [if_pos hd, if_pos (by rcases hd with hd | hd <;> simp [hd])]
  · rw [if_neg hd, if_neg (by
      have h1 : Pointer.IsClean n.Left = true := by
        cases hl : Pointer.IsClean n.Left
        · exact absurd (Or.inl hl) hd
        · rfl
      have h2 : Pointer.IsClean n.Right = true := by
        cases hr : Pointer.IsClean n.Right
        · exact absurd (Or.inr hr) hd
        · rfl
      simp [h1, h2])]
    simp only [hu]
    by_cases he : h = internalDigest hp n
    · simp [he, Hash.Equal]
    · simp [he, Hash.Equal]

/-- A child pointer is not clean exactly when it is present with
`Clean == false`. -/
theorem isClean_eq_false_iff (p : Option Pointer) :
    Pointer.IsClean p = false ↔ ∃ q, p = some q ∧ q.Clean = false := by
  cases p with
  | none => simp [Pointer.IsClean]
  | some q => simp [Pointer.IsClean]

/-- The error of `InternalNode.Validate` is the same for two nodes whose
children agree on cleanliness and on the projected hash. -/
theorem internalNode_validate_congr (hp : hash.Primitive) (m n : InternalNode) (h : hash.Hash)
    (h1 : Pointer.IsClean m.Left = Pointer.IsClean n.Left)
    (h2 : Pointer.IsClean m.Right = Pointer.IsClean n.Right)
    (h3 : Pointer.GetHash hp m.Left = Pointer.GetHash hp n.Left)
    (h4 : Pointer.GetHash hp m.Right = Pointer.GetHash hp n.Right) :
    (m.Validate hp h).2 = (n.Validate hp h).2 := by
  rw [internalNode_validate_eq hp m h, internalNode_validate_eq hp n h]
  have hD : internalDigest hp m = internalDigest hp n := by
    unfold internalDigest; rw [h3, h4]
  rw [h1, h2, hD]
  split
  · rfl
  · split <;> rfl

/-- C12: `InternalNode.Validate(h)` returns the dirty-pointers error exactly
when a present child pointer has `Clean == false`. Otherwise it returns
success exactly when `h` is `H(0x01 || project(Left) || project(Right))`, and
the hash-mismatch error if not. The outcome depends only on the `Clean` and
`Hash` fields of the child pointers: two nodes whose children agree on
cleanliness and on the projected hash get the same answer, whatever the
resident nodes of the children are. -/
theorem C12_internal_validate (hp : hash.Primitive) (n : InternalNode) (h : hash.Hash) :
    ((n.Validate hp h).2 = some GoError.DirtyPointers ↔
      ((∃ p, n.Left = some p ∧ p.Clean = false) ∨ (∃ p, n.Right = some p ∧ p.Clean = false))) ∧
    (¬ ((∃ p, n.Left = some p ∧ p.Clean = false) ∨ (∃ p, n.Right = some p ∧ p.Clean = false)) →
      ((n.Validate hp h).2 = none ↔
        h = hp.digest ([(0x01 : Byte)] ++ (Pointer.GetHash hp n.Left).bytes
          ++ (Pointer.GetHash hp n.Right).bytes)) ∧
      (h ≠ hp.digest ([(0x01 : Byte)] ++ (Pointer.GetHash hp n.Left).bytes
          ++ (Pointer.GetHash hp n.Right).bytes) →
        (n.Validate hp h).2 = some (GoError.NodeHashMismatch h.bytes
          (hp.digest ([(0x01 : Byte)] ++ (Pointer.GetHash hp n.Left).bytes
            ++ (Pointer.GetHash hp n.Right).bytes)).bytes))) ∧
    (∀ m : InternalNode,
      Pointer.IsClean m.Left = Pointer.IsClean n.Left →
      Pointer.IsClean m.Right = Pointer.IsClean n.Right →
      Pointer.GetHash hp m.Left = Pointer.GetHash hp n.Left →
      Pointer.GetHash hp m.Right = Pointer.GetHash hp n.Right →
      (m.Validate hp h).2 = (n.Validate hp h).2) ∧
    (∀ (c : Bool) (nh ph qh : hash.Hash) (pc qc : Bool) (a b a' b' : Option Node)
        (l d l' d' : Option Nat),
      ((InternalNode.mk c nh (some (Pointer.mk pc ph a l d))
          (some (Pointer.mk qc qh b l' d'))).Validate hp h).2 =
      ((InternalNode.mk c nh (some (Pointer.mk pc ph a' none none))
          (some (Pointer.mk qc qh b' none none))).Validate hp h).2) := by
  have key := internalNode_validate_eq hp n h
  have hdirty : (Pointer.IsClean n.Left = false ∨ Pointer.IsClean n.Right = false) ↔
      ((∃ p, n.Left = some p ∧ p.Clean = false) ∨ (∃ p, n.Right = some p ∧ p.Clean = false)) := by
    rw [isClean_eq_false_iff, isClean_eq_false_iff]
  have same := fun m => internalNode_validate_congr hp m n h
  refine ⟨?_, ?_, same, ?_⟩
  · rw [← hdirty, key]
    by_cases hd : Pointer.IsClean n.Left = false ∨ Pointer.IsClean n.Right = false
    · simp [hd]
    · rw [if_neg hd]
      constructor
      · intro h0
        split at h0 <;> cases h0
      · intro h0; exact absurd h0 hd
  · intro hnd
    rw [← hdirty] at hnd
    have hD : hp.digest ([(0x01 : Byte)] ++ (Pointer.GetHash hp n.Left).bytes
        ++ (Pointer.GetHash hp n.Right).bytes) = internalDigest hp n := rfl
    rw [hD, key, if_neg hnd]
    constructor
    · constructor
      · intro h0
        by_contra hne
        rw [if_neg hne] at h0
        cases h0
      · intro he
        rw [if_pos he]
    · intro hne
      rw [if_neg hne]
  · intro c nh ph qh pc qc a b a' b' l d l' d'
    exact internalNode_validate_congr hp _ _ h rfl rfl rfl rfl

/-- C12 at a node whose left child pointer is dirty: validation against the
node's own cached hash returns the dirty-pointers error. -/
theorem C12_internal_validate_witness :
    ((InternalNode.mk true Hash.zero (some (Pointer.mk false Hash.zero none none none))
      none).Validate demo Hash.zero).2 = some GoError.DirtyPointers :=
  (C12_internal_validate demo
    (InternalNode.mk true Hash.zero (some (Pointer.mk false Hash.zero none none none)) none)
    Hash.zero).1.mpr (Or.inl ⟨_, rfl, rfl⟩)

/-- The three outcomes of `LeafNode.Validate` on a leaf that has a value. -/
theorem leafNode_validate_eq (hp : hash.Primitive) (n : LeafNode) (v : internal.Value)
    (h : hash.Hash) (hv : n.Value = some v) :
    n.Validate hp h =
      if v.Clean = false then
        .ret (n, some GoError.DirtyValue)
      else if h = leafDigest hp n.Key v then
        .ret ({ n with Hash := leafDigest hp n.Key v }, none)
      else
        .ret ({ n with Hash := leafDigest hp n.Key v },
          some (GoError.NodeHashMismatch h.bytes (leafDigest hp n.Key v).bytes)) := by
  cases n with
  | mk c nh k val =>
    have hv' : val = some v := hv
    subst hv'
    by_cases hc : v.Clean = false
    · simp [LeafNode.Validate, hc]
    · have hc' : v.Clean = true := by
        cases hv' : v.Clean
        · exact absurd hv' hc
        · rfl
      by_cases he : h = leafDigest hp k v
      · have he' : h = hp.digest (PrefixLeafNode :: (k.bytes ++ v.Hash.bytes)) := he
        simp [LeafNode.Validate, LeafNode.UpdateHash, Hash.FromBytes, Hash.Equal, hc', leafDigest,
          ← he']
      · have he' : ¬ h = hp.digest (PrefixLeafNode :: (k.bytes ++ v.Hash.bytes)) := he
        simp [LeafNode.Validate, LeafNode.UpdateHash, Hash.FromBytes, Hash.Equal, hc', leafDigest,
          he']

/-- C13: for a leaf with a value, `Validate(h)` returns the dirty-value error
exactly when `Value.Clean == false`. Otherwise it returns success exactly when
`h` is `H(0x00 || Key || Value.Hash)`, computed from the key stored in the leaf
and the cached hash of the value, and the hash-mismatch error if not. So after
the key of a leaf was replaced, validation against the hash cached before is
rejected exactly when the digest of the new preimage differs from that
hash. -/
theorem C13_leaf_validate (hp : hash.Primitive) (n : LeafNode) (v : internal.Value)
    (h : hash.Hash) (hv : n.Value = some v) :
    (∃ n' err, n.Validate hp h = .ret (n', err) ∧
      (err = some GoError.DirtyValue ↔ v.Clean = false) ∧
      (v.Clean = true →
        (err = none ↔ h = hp.digest ([(0x00 : Byte)] ++ n.Key.bytes ++ v.Hash.bytes)) ∧
        (h ≠ hp.digest ([(0x00 : Byte)] ++ n.Key.bytes ++ v.Hash.bytes) →
          err = some (GoError.NodeHashMismatch h.bytes
            (hp.digest ([(0x00 : Byte)] ++ n.Key.bytes ++ v.Hash.bytes)).bytes)))) ∧
    (∀ newKey : hash.Hash, v.Clean = true →
      ∃ n' err, (LeafNode.mk n.Clean n.Hash newKey n.Value).Validate hp n.Hash = .ret (n', err) ∧
        (err ≠ none ↔
          hp.digest ([(0x00 : Byte)] ++ newKey.bytes ++ v.Hash.bytes) ≠ n.Hash)) := by
  constructor
  · have key := leafNode_validate_eq hp n v h hv
    have hD : hp.digest ([(0x00 : Byte)] ++ n.Key.bytes ++ v.Hash.bytes)
        = leafDigest hp n.Key v := rfl
    rw [hD]
    by_cases hc : v.Clean = false
    · rw [if_pos hc] at key
      refine ⟨_, _, key, ?_, ?_⟩
      · simp [hc]
      · intro ht; rw [hc] at ht; cases ht
    · rw [if_neg hc] at key
      have hc' : v.Clean = true := by
        cases hv' : v.Clean
        · exact absurd hv' hc
        · rfl
      by_cases he : h = leafDigest hp n.Key v
      · rw [if_pos he] at key
        refine ⟨_, _, key, ?_, ?_⟩
        · simp [hc']
        · intro _
          exact ⟨(by simp [he]), fun hne => absurd he hne⟩
      · rw [if_neg he] at key
        refine ⟨_, _, key, ?_, ?_⟩
        · simp [hc']
        · intro _
          refine ⟨⟨fun h0 => (by cases h0), fun h0 => absurd h0 he⟩, fun _ => rfl⟩
  · intro newKey hc
    have key := leafNode_validate_eq hp (LeafNode.mk n.Clean n.Hash newKey n.Value) v n.Hash hv
    have hcf : ¬ v.Clean = false := by rw [hc]; exact fun h0 => by cases h0
    rw [if_neg hcf] at key
    have hD : hp.digest ([(0x00 : Byte)] ++ newKey.bytes ++ v.Hash.bytes)
        = leafDigest hp newKey v := rfl
    rw [hD]
    by_cases he : n.Hash = leafDigest hp newKey v
    · rw [if_pos he] at key
      exact ⟨_, _, key, (by simp [he])⟩
    · rw [if_neg he] at key
      refine ⟨_, _, key, ?_⟩
      constructor
      · intro _ h0; exact he h0.symm
      · intro _ h0; cases h0

set_option maxRecDepth 100000 in
/-- C13 at the leaf with key `H("k")`, value `"hi"` and a consistent cached
hash: validation against the cached hash succeeds, and after the key is
replaced by `H("j")` it is rejected. -/
theorem C13_leaf_validate_witness :
    (∃ n' err,
      (LeafNode.mk true
        (demo.digest ([(0x00 : Byte)] ++ (demo.digest [0x6b]).bytes
          ++ (demo.digest [0x68, 0x69]).bytes))
        (demo.digest [0x6b])
        (some ⟨true, demo.digest [0x68, 0x69], some [0x68, 0x69], none⟩)).Validate demo
        (demo.digest ([(0x00 : Byte)] ++ (demo.digest [0x6b]).bytes
          ++ (demo.digest [0x68, 0x69]).bytes)) = .ret (n', err) ∧ err = none) ∧
    (∃ n' err,
      (LeafNode.mk true
        (demo.digest ([(0x00 : Byte)] ++ (demo.digest [0x6b]).bytes
          ++ (demo.digest [0x68, 0x69]).bytes))
        (demo.digest [0x6a])
        (some ⟨true, demo.digest [0x68, 0x69], some [0x68, 0x69], none⟩)).Validate demo
        (demo.digest ([(0x00 : Byte)] ++ (demo.digest [0x6b]).bytes
          ++ (demo.digest [0x68, 0x69]).bytes)) = .ret (n', err) ∧ err ≠ none) := by
  have h := C13_leaf_validate demo
    (LeafNode.mk true
      (demo.digest ([(0x00 : Byte)] ++ (demo.digest [0x6b]).bytes
        ++ (demo.digest [0x68, 0x69]).bytes))
      (demo.digest [0x6b])
      (some ⟨true, demo.digest [0x68, 0x69], some [0x68, 0x69], none⟩))
    ⟨true, demo.digest [0x68, 0x69], some [0x68, 0x69], none⟩
    (demo.digest ([(0x00 : Byte)] ++ (demo.digest [0x6b]).bytes
      ++ (demo.digest [0x68, 0x69]).bytes)) rfl
  obtain ⟨⟨n1, e1, h1, _, h3⟩, h4⟩ := h
  obtain ⟨n2, e2, h5, h6⟩ := h4 (demo.digest [0x6a]) rfl
  exact ⟨⟨n1, e1, h1, ((h3 rfl).1).mpr rfl⟩, ⟨n2, e2, h5, h6.mpr (by decide)⟩⟩

/-- The two outcomes of `Value.Validate`. -/
theorem value_validate_eq (hp : hash.Primitive) (v : internal.Value) (h : hash.Hash) :
    v.Validate hp h =
      if h = hp.digest (elems v.Value) then
        ({ v with Hash := hp.digest (elems v.Value) }, none)
      else
        ({ v with Hash := hp.digest (elems v.Value) },
          some (GoError.ValueHashMismatch h.bytes (hp.digest (elems v.Value)).bytes)) := by
  by_cases he : h = hp.digest (elems v.Value)
  · simp [Value.Validate, Value.UpdateHash, Hash.FromBytes, Hash.Equal, ← he]
  · simp [Value.Validate, Value.UpdateHash, Hash.FromBytes, Hash.Equal, he]

/-- C14: validating a clean, internally consistent entity against its own
cached hash succeeds and leaves the entity as it was, so validating again
gives the same result. A value is consistent when its `Hash` is the digest of
its payload; an internal node when its child pointers are clean and its `Hash`
is the digest of the projected child hashes; a leaf when its value is clean
and its `Hash` is `H(0x00 || Key || Value.Hash)`. -/
theorem C14_validate_own_hash (hp : hash.Primitive) :
    (∀ v : internal.Value, v.Clean = true → v.Hash = hp.digest (elems v.Value) →
      v.Validate hp v.GetHash = (v, none) ∧
      (v.Validate hp v.GetHash).1.Validate hp (v.Validate hp v.GetHash).1.GetHash = (v, none)) ∧
    (∀ n : InternalNode, n.Clean = true →
      Pointer.IsClean n.Left = true → Pointer.IsClean n.Right = true →
      n.Hash = hp.digest ([(0x01 : Byte)] ++ (Pointer.GetHash hp n.Left).bytes
        ++ (Pointer.GetHash hp n.Right).bytes) →
      n.Validate hp n.GetHash = (n, none) ∧
      (n.Validate hp n.GetHash).1.Validate hp (n.Validate hp n.GetHash).1.GetHash = (n, none)) ∧
    (∀ (n : LeafNode) (v : internal.Value), n.Clean = true → n.Value = some v →
      v.Clean = true →
      n.Hash = hp.digest ([(0x00 : Byte)] ++ n.Key.bytes ++ v.Hash.bytes) →
      n.Validate hp n.GetHash = .ret (n, none)) := by
  refine ⟨?_, ?_, ?_⟩
  · intro v _ hh
    have h1 : v.Validate hp v.GetHash = (v, none) := by
      show v.Validate hp v.Hash = (v, none)
      rw [value_validate_eq, if_pos hh, ← hh]
    rw [h1]
    exact ⟨rfl, h1⟩
  · intro n _ hl hr hh
    have hD : hp.digest ([(0x01 : Byte)] ++ (Pointer.GetHash hp n.Left).bytes
        ++ (Pointer.GetHash hp n.Right).bytes) = internalDigest hp n := rfl
    rw [hD] at hh
    have h1 : n.Validate hp n.GetHash = (n, none) := by
      show n.Validate hp n.Hash = (n, none)
      rw [internalNode_validate_eq, if_neg (by simp [hl, hr]), if_pos hh,
        internalNode_updateHash_eq]
      have : InternalNode.mk n.Clean (internalDigest hp n) n.Left n.Right = n := by
        rw [← hh]; cases n; rfl
      exact congrArg (fun x => (x, (none : Option GoError))) this
    rw [h1]
    exact ⟨rfl, h1⟩
  · intro n v _ hv hc hh
    have hD : hp.digest ([(0x00 : Byte)] ++ n.Key.bytes ++ v.Hash.bytes)
        = leafDigest hp n.Key v := rfl
    rw [hD] at hh
    show n.Validate hp n.Hash = .ret (n, none)
    rw [leafNode_validate_eq hp n v _ hv, if_neg (by simp [hc]), if_pos hh, ← hh]

set_option maxRecDepth 100000 in
/-- C14 at the leaf with key `H("k")`, value `"hi"` and consistent hashes. -/
theorem C14_validate_own_hash_witness :
    (LeafNode.mk true
      (demo.digest ([(0x00 : Byte)] ++ (demo.digest [0x6b]).bytes
        ++ (demo.digest [0x68, 0x69]).bytes))
      (demo.digest [0x6b])
      (some ⟨true, demo.digest [0x68, 0x69], some [0x68, 0x69], none⟩)).Validate demo
      (LeafNode.mk true
        (demo.digest ([(0x00 : Byte)] ++ (demo.digest [0x6b]).bytes
          ++ (demo.digest [0x68, 0x69]).bytes))
        (demo.digest [0x6b])
        (some ⟨true, demo.digest [0x68, 0x69], some [0x68, 0x69], none⟩)).GetHash
      = .ret (LeafNode.mk true
        (demo.digest ([(0x00 : Byte)] ++ (demo.digest [0x6b]).bytes
          ++ (demo.digest [0x68, 0x69]).bytes))
        (demo.digest [0x6b])
        (some ⟨true, demo.digest [0x68, 0x69], some [0x68, 0x69], none⟩), none) :=
  (C14_validate_own_hash demo).2.2 _ ⟨true, demo.digest [0x68, 0x69], some [0x68, 0x69], none⟩
    rfl rfl rfl rfl

/-- The result of `Pointer.Extract` on a clean or absent pointer. -/
theorem pointer_extract_clean (p : Option Pointer) (h : Pointer.IsClean p = true) :
    Pointer.Extract p = .ret (p.map fun q => Pointer.mk true q.Hash none none none) := by
  cases p with
  | none => rfl
  | some q =>
    have hq : q.Clean = true := h
    simp [Pointer.Extract, hq]

/-- `Pointer.Extract` panics on a present dirty pointer. -/
theorem pointer_extract_dirty (p : Option Pointer) (h : Pointer.IsClean p = false) :
    Pointer.Extract p = .panic "urkel: extract called on dirty pointer" := by
  cases p with
  | none => cases h
  | some q =>
    have hq : q.Clean = false := h
    simp [Pointer.Extract, hq]

/-- C15: `InternalNode.Extract` returns exactly when `n.Clean == true` and
every present child pointer has `Clean == true`, and panics otherwise. When it
returns, the result is an internal node with `Clean == true` and the `Hash` of
`n`, in which a child is absent exactly when it is absent in `n`, and a present
child is a pointer with `Clean == true`, the same `Hash`, no resident node and
empty `LRU` and `DBInternal` slots. -/
theorem C15_internal_extract (n : InternalNode) :
    ((∃ m, n.Extract = .ret m) ↔
      (n.Clean = true ∧ (∀ p, n.Left = some p → p.Clean = true) ∧
        (∀ p, n.Right = some p → p.Clean = true))) ∧
    (¬ (n.Clean = true ∧ (∀ p, n.Left = some p → p.Clean = true) ∧
        (∀ p, n.Right = some p → p.Clean = true)) → ∃ msg, n.Extract = .panic msg) ∧
    ((n.Clean = true ∧ (∀ p, n.Left = some p → p.Clean = true) ∧
        (∀ p, n.Right = some p → p.Clean = true)) →
      ∃ m, n.Extract = .ret (Node.internal m) ∧
        m.Clean = true ∧ m.Hash = n.Hash ∧
        (m.Left = none ↔ n.Left = none) ∧ (m.Right = none ↔ n.Right = none) ∧
        (∀ p, n.Left = some p → m.Left = some (Pointer.mk true p.Hash none none none)) ∧
        (∀ p, n.Right = some p → m.Right = some (Pointer.mk true p.Hash none none none))) := by
  have hcl : ∀ q : Option Pointer, (∀ p, q = some p → p.Clean = true) ↔ Pointer.IsClean q = true := by
    intro q
    cases q with
    | none => simp [Pointer.IsClean]
    | some p => simp [Pointer.IsClean]
  rw [hcl, hcl]
  have good : (n.Clean = true ∧ Pointer.IsClean n.Left = true ∧ Pointer.IsClean n.Right = true) →
      n.Extract = .ret (Node.internal (InternalNode.mk true n.Hash
        (n.Left.map fun q => Pointer.mk true q.Hash none none none)
        (n.Right.map fun q => Pointer.mk true q.Hash none none none))) := by
    rintro ⟨h1, h2, h3⟩
    simp [InternalNode.Extract, h1, pointer_extract_clean _ h2, pointer_extract_clean _ h3]
  have bad : ¬ (n.Clean = true ∧ Pointer.IsClean n.Left = true ∧ Pointer.IsClean n.Right = true) →
      ∃ msg, n.Extract = .panic msg := by
    intro h
    by_cases h1 : n.Clean = true
    · cases h2 : Pointer.IsClean n.Left
      · exact ⟨"urkel: extract called on dirty pointer",
          by simp [InternalNode.Extract, h1, pointer_extract_dirty _ h2]⟩
      · cases h3 : Pointer.IsClean n.Right
        · exact ⟨"urkel: extract called on dirty pointer",
            by simp [InternalNode.Extract, h1, pointer_extract_clean _ h2,
              pointer_extract_dirty _ h3]⟩
        · exact absurd ⟨h1, h2, h3⟩ h
    · exact ⟨"urkel: extract called on dirty node", by simp [InternalNode.Extract, h1]⟩
  refine ⟨⟨?_, fun h => ⟨_, good h⟩⟩, bad, ?_⟩
  · rintro ⟨m, hm⟩
    by_contra hcon
    obtain ⟨msg, hmsg⟩ := bad hcon
    rw [hmsg] at hm
    cases hm
  · intro h
    refine ⟨_, good h, rfl, rfl, ?_, ?_, ?_, ?_⟩
    · show Option.map _ n.Left = none ↔ _
      cases n.Left <;> simp
    · show Option.map _ n.Right = none ↔ _
      cases n.Right <;> simp
    · intro p hp
      show Option.map _ n.Left = _
      rw [hp]; rfl
    · intro p hp
      show Option.map _ n.Right = _
      rw [hp]; rfl

/-- C15 at a clean node whose two children are resident, clean and carry LRU
and backend handles. -/
theorem C15_internal_extract_witness :
    ∃ m, (InternalNode.mk true Hash.zero
        (some (Pointer.mk true (demo.digest [1])
          (some (Node.internal (InternalNode.mk true (demo.digest [1]) none none))) (some 3)
          (some 4)))
        (some (Pointer.mk true (demo.digest [2])
          (some (Node.leaf ⟨true, demo.digest [2], Hash.zero, none⟩)) none none))).Extract
        = .ret (Node.internal m) ∧
      m.Clean = true ∧ m.Hash = Hash.zero ∧
      m.Left = some (Pointer.mk true (demo.digest [1]) none none none) ∧
      m.Right = some (Pointer.mk true (demo.digest [2]) none none none) := by
  obtain ⟨m, h1, h2, h3, _, _, h6, h7⟩ := (C15_internal_extract (InternalNode.mk true Hash.zero
    (some (Pointer.mk true (demo.digest [1])
      (some (Node.internal (InternalNode.mk true (demo.digest [1]) none none))) (some 3)
      (some 4)))
    (some (Pointer.mk true (demo.digest [2])
      (some (Node.leaf ⟨true, demo.digest [2], Hash.zero, none⟩)) none none)))).2.2
    ⟨rfl, fun p hp => by cases hp; rfl, fun p hp => by cases hp; rfl⟩
  exact ⟨m, h1, h2, h3, h6 _ rfl, h7 _ rfl⟩

/-- C16: `v.EqualPointer(other)`, where each side may be nil, is true when both
are nil, is also true when exactly one of them is nil, and is
`v.Equal(other.Value)` when both are present. -/
theorem C16_value_equal_pointer (hp : hash.Primitive) :
    Value.EqualPointer hp none none = true ∧
    (∀ other : internal.Value, Value.EqualPointer hp none (some other) = true) ∧
    (∀ v : internal.Value, Value.EqualPointer hp (some v) none = true) ∧
    (∀ v other : internal.Value,
      Value.EqualPointer hp (some v) (some other) = v.Equal hp other.Value) :=
  ⟨rfl, fun _ => rfl, fun _ => rfl, fun _ _ => rfl⟩

/-- C17: for a value whose payload is present, `v.Equal(b)` is true exactly
when the payload and `b` have the same bytes, whatever `v.Hash` is; for a value
whose payload is absent, `v.Equal(b)` is true exactly when `v.Hash` is `H(b)`.
So a value with absent payload and `Hash = H(p)` is equal to `p`, and equal to
`q` exactly when `H(q) = H(p)`. -/
theorem C17_value_equal (hp : hash.Primitive) (v : internal.Value) (b : Option (List Byte)) :
    (∀ payload, v.Value = some payload → (v.Equal hp b = true ↔ payload = elems b)) ∧
    (v.Value = none → (v.Equal hp b = true ↔ v.Hash = hp.digest (elems b))) ∧
    (∀ (c : Bool) (lru : Option Nat) (p q : List Byte),
      (internal.Value.mk c (hp.digest p) none lru).Equal hp (some p) = true ∧
      ((internal.Value.mk c (hp.digest p) none lru).Equal hp (some q) = true ↔
        hp.digest q = hp.digest p)) := by
  refine ⟨?_, ?_, ?_⟩
  · intro payload hv
    simp [Value.Equal, bytesEqual, hv, elems]
  · intro hv
    simp [Value.Equal, hv, Hash.FromBytes, Hash.Equal]
  · intro c lru p q
    constructor
    · simp [Value.Equal, Hash.FromBytes, Hash.Equal, elems]
    · simp [Value.Equal, Hash.FromBytes, Hash.Equal, elems]
      exact eq_comm

/-- C17 at the value known only by the hash of `"payload"`: it is equal to
`"payload"` and not equal to `"other"`. -/
theorem C17_value_equal_witness :
    (internal.Value.mk true (demo.digest [0x70, 0x61, 0x79, 0x6c, 0x6f, 0x61, 0x64]) none
      none).Equal demo (some [0x70, 0x61, 0x79, 0x6c, 0x6f, 0x61, 0x64]) = true ∧
    ¬ ((internal.Value.mk true (demo.digest [0x70, 0x61, 0x79, 0x6c, 0x6f, 0x61, 0x64]) none
      none).Equal demo (some [0x6f, 0x74, 0x68, 0x65, 0x72]) = true) := by
  have h := (C17_value_equal demo Value.zero none).2.2 true none
    [0x70, 0x61, 0x79, 0x6c, 0x6f, 0x61, 0x64] [0x6f, 0x74, 0x68, 0x65, 0x72]
  exact ⟨h.1, fun h0 => absurd (h.2.mp h0) (by decide)⟩

/-- Two present clean pointers are compared by hash. -/
theorem pointer_equal_clean (hp : hash.Primitive) (p q : Pointer)
    (hpc : p.Clean = true) (hqc : q.Clean = true) :
    Pointer.Equal hp (some p) (some q) = .ret (p.Hash.Equal q.Hash) := by
  cases p with
  | mk pc ph pn pl pd =>
    cases q with
    | mk qc qh qn ql qd =>
      have h1 : pc = true := hpc
      have h2 : qc = true := hqc
      subst h1; subst h2
      rfl

/-- Two present pointers that are not both clean are compared through their
resident nodes, and are unequal when one of them has none. -/
theorem pointer_equal_dirty (hp : hash.Primitive) (p q : Pointer)
    (hd : ¬ (p.Clean = true ∧ q.Clean = true)) :
    Pointer.Equal hp (some p) (some q) =
      match p.Node, q.Node with
      | some a, some b => Node.Equal hp a (some b)
      | _, _ => .ret false := by
  cases p with
  | mk pc ph pn pl pd =>
    cases q with
    | mk qc qh qn ql qd =>
      cases pc <;> cases qc <;> cases pn <;> cases qn <;>
        first
        | rfl
        | exact absurd ⟨rfl, rfl⟩ hd

/-- C18: for two present pointers `p` and `q`: when both have `Clean == true`,
`p.Equal(q)` is the equality of their hashes, whatever their resident nodes
are; otherwise `p.Equal(q)` is true exactly when both have a resident node and
`p.Node.Equal(q.Node)` is true, so it is false when one of them has no resident
node, also when `p` and `q` are the same pointer. -/
theorem C18_pointer_equal (hp : hash.Primitive) (p q : Pointer) :
    (p.Clean = true → q.Clean = true →
      Pointer.Equal hp (some p) (some q) = .ret (decide (p.Hash = q.Hash)) ∧
      (p.Hash ≠ q.Hash → Pointer.Equal hp (some p) (some q) = .ret false)) ∧
    (¬ (p.Clean = true ∧ q.Clean = true) →
      (Pointer.Equal hp (some p) (some q) = .ret true ↔
        ∃ a b, p.Node = some a ∧ q.Node = some b ∧ Node.Equal hp a (some b) = .ret true) ∧
      (∀ a b, p.Node = some a → q.Node = some b →
        Pointer.Equal hp (some p) (some q) = Node.Equal hp a (some b)) ∧
      (p.Node = none ∨ q.Node = none → Pointer.Equal hp (some p) (some q) = .ret false)) ∧
    (p.Clean = false → p.Node = none → Pointer.Equal hp (some p) (some p) = .ret false) := by
  refine ⟨?_, ?_, ?_⟩
  · intro h1 h2
    have h := pointer_equal_clean hp p q h1 h2
    refine ⟨h, ?_⟩
    intro hne
    rw [h]
    simp [Hash.Equal, hne]
  · intro hd
    have h := pointer_equal_dirty hp p q hd
    refine ⟨?_, ?_, ?_⟩
    · rw [h]
      constructor
      · intro h0
        cases hpn : p.Node with
        | none => rw [hpn] at h0; cases h0
        | some a =>
          cases hqn : q.Node with
          | none => rw [hpn, hqn] at h0; cases h0
          | some b =>
            rw [hpn, hqn] at h0
            exact ⟨a, b, rfl, rfl, h0⟩
      · rintro ⟨a, b, ha, hb, hab⟩
        rw [ha, hb]
        exact hab
    · intro a b ha hb
      rw [h, ha, hb]
    · intro hn
      rw [h]
      rcases hn with hn | hn
      · rw [hn]
      · rw [hn]
        cases p.Node <;> rfl
  · intro hc hn
    rw [pointer_equal_dirty hp p p (by rw [hc]; simp), hn]

/-- C18 at two clean pointers with differing hashes and differing resident
nodes, and at a dirty pointer without resident node compared with itself. -/
theorem C18_pointer_equal_witness :
    Pointer.Equal demo
      (some (Pointer.mk true (demo.digest [1])
        (some (Node.leaf ⟨true, demo.digest [1], Hash.zero, none⟩)) none none))
      (some (Pointer.mk true (demo.digest [2]) none none none)) = .ret false ∧
    Pointer.Equal demo (some (Pointer.mk false Hash.zero none none none))
      (some (Pointer.mk false Hash.zero none none none)) = .ret false :=
  ⟨((C18_pointer_equal demo
      (Pointer.mk true (demo.digest [1])
        (some (Node.leaf ⟨true, demo.digest [1], Hash.zero, none⟩)) none none)
      (Pointer.mk true (demo.digest [2]) none none none)).1 rfl rfl).2 (by decide),
    (C18_pointer_equal demo (Pointer.mk false Hash.zero none none none)
      (Pointer.mk false Hash.zero none none none)).2.2 rfl rfl⟩

/-- A value decoder that reports an error was given fewer than four bytes. -/
theorem value_sized_error_short (hp : hash.Primitive) (v : internal.Value) (buf : List Byte)
    (h : (v.SizedUnmarshalBinary hp buf).2.2 ≠ none) : buf.length < 4 := by
  by_contra hlen
  rw [value_sized_long hp v buf (by omega)] at h
  exact h rfl

/-- C19: decoding is atomic on failure. Whenever `SizedUnmarshalBinary(buf)`
of a value, a leaf or an internal node returns an error, the consumed count is
0 and the receiver is what it was before the call, in every field; the leaf
decoder always returns. -/
theorem C19_decoding_atomic (hp : hash.Primitive) (buf : List Byte) :
    (∀ v : internal.Value, (v.SizedUnmarshalBinary hp buf).2.2 ≠ none →
      (v.SizedUnmarshalBinary hp buf).2.1 = 0 ∧ (v.SizedUnmarshalBinary hp buf).1 = v) ∧
    (∀ n : InternalNode, (n.SizedUnmarshalBinary hp buf).2.2 ≠ none →
      (n.SizedUnmarshalBinary hp buf).2.1 = 0 ∧ (n.SizedUnmarshalBinary hp buf).1 = n) ∧
    (∀ n : LeafNode, ∃ r, n.SizedUnmarshalBinary hp buf = .ret r ∧
      (r.2.2 ≠ none → r.2.1 = 0 ∧ r.1 = n)) := by
  refine ⟨?_, ?_, ?_⟩
  · intro v h
    rw [value_sized_short hp v buf (value_sized_error_short hp v buf h)]
    exact ⟨rfl, rfl⟩
  · intro n h
    by_cases hm : buf.length < 1 + Size * 2 ∨ buf.getD 0 0 ≠ PrefixInternalNode
    · rw [internalNode_sized_unmarshal_malformed hp n buf hm]
      exact ⟨rfl, rfl⟩
    · have h1 : ¬ buf.length < 1 + Size * 2 := fun hh => hm (Or.inl hh)
      have h2 : buf.getD 0 0 = PrefixInternalNode := by
        by_contra hh; exact hm (Or.inr hh)
      by_cases h3 : 1 + Size * 2 < buf.length
      · rw [internalNode_sized_unmarshal_trailing hp n buf h3 h2]
        exact ⟨rfl, rfl⟩
      · exact absurd ((internalNode_sized_unmarshal_ok_iff hp n buf).mpr ⟨by omega, h2⟩) h
  · intro n
    by_cases hm : buf.length < 1 + Size ∨ buf.getD 0 0 ≠ PrefixLeafNode
    · exact ⟨_, leafNode_sized_unmarshal_malformed hp n buf hm, fun _ => ⟨rfl, rfl⟩⟩
    · have h1 : 1 + Size ≤ buf.length := by
        by_contra hh; exact hm (Or.inl (by omega))
      have h2 : buf.getD 0 0 = PrefixLeafNode := by
        by_contra hh; exact hm (Or.inr hh)
      by_cases h3 : buf.length < 1 + Size + 4
      · exact ⟨_, leafNode_sized_unmarshal_short_value hp n buf h1 h2 h3,
          fun _ => ⟨rfl, rfl⟩⟩
      · exact ⟨_, leafNode_sized_unmarshal_ok hp n buf (by omega) h2,
          fun h => absurd rfl h⟩

/-- C19 at a 3-byte buffer, which all three decoders reject, with receivers
that hold data. -/
theorem C19_decoding_atomic_witness :
    ((internal.Value.mk true (demo.digest [1]) (some [1]) (some 5)).SizedUnmarshalBinary demo
        [0, 1, 2]).2.1 = 0 ∧
    ((internal.Value.mk true (demo.digest [1]) (some [1]) (some 5)).SizedUnmarshalBinary demo
        [0, 1, 2]).1 = internal.Value.mk true (demo.digest [1]) (some [1]) (some 5) :=
  (C19_decoding_atomic demo [0, 1, 2]).1
    (internal.Value.mk true (demo.digest [1]) (some [1]) (some 5)) (by decide)

/-- `InternalNode.Equal` on two present internal nodes, in terms of
`Pointer.Equal`: hash equality when both are clean, otherwise the left
comparison and, when it returned true, the right comparison. -/
theorem internalNode_equal_unfold (hp : hash.Primitive) (n m : InternalNode) :
    InternalNode.Equal hp (some n) (some (Node.internal m)) =
      if n.Clean && m.Clean then
        .ret (n.Hash.Equal m.Hash)
      else
        match Pointer.Equal hp n.Left m.Left with
        | .panic msg => .panic msg
        | .ret false => .ret false
        | .ret true => Pointer.Equal hp n.Right m.Right := by
  cases n with
  | mk nc nh nl nr =>
    cases m with
    | mk mc mh ml mr =>
      cases nl <;> cases nr <;> rfl

/-- Comparing two internal nodes that are not both clean panics when the left
child of the receiver is absent. -/
theorem internalNode_equal_panics (hp : hash.Primitive) (n m : InternalNode)
    (hd : (n.Clean && m.Clean) = false) (hl : n.Left = none) :
    InternalNode.Equal hp (some n) (some (Node.internal m)) =
      .panic "nil pointer dereference" := by
  rw [internalNode_equal_unfold, hd, hl]
  rfl

/-- C20 (the code panics): comparing two internal nodes with `Clean == false`
and no children does not return a boolean. `InternalNode.Equal` calls
`n.Left.Equal(other.Left)` on the nil left pointer, and `Pointer.Equal` reads
`p.Clean` without a nil test. The same happens for every pair of internal
nodes that are not both clean when the receiver has no left child, and when
the receiver's left child is clean and the other node has none. -/
theorem C20_equal_panics_on_absent_child (hp : hash.Primitive) :
    InternalNode.Equal hp (some (InternalNode.mk false Hash.zero none none))
        (some (Node.internal (InternalNode.mk false Hash.zero none none)))
      = .panic "nil pointer dereference" ∧
    (∀ (nh mh : hash.Hash) (mc : Bool) (nr ml mr : Option Pointer),
      InternalNode.Equal hp (some (InternalNode.mk false nh none nr))
        (some (Node.internal (InternalNode.mk mc mh ml mr)))
      = .panic "nil pointer dereference") ∧
    (∀ (nh mh ph : hash.Hash) (mc : Bool) (a : Option Node) (l d : Option Nat)
        (nr mr : Option Pointer),
      InternalNode.Equal hp (some (InternalNode.mk false nh (some (Pointer.mk true ph a l d)) nr))
        (some (Node.internal (InternalNode.mk mc mh none mr)))
      = .panic "nil pointer dereference") := by
  refine ⟨?_, ?_, ?_⟩
  · exact internalNode_equal_panics hp _ _ rfl rfl
  · intro nh mh mc nr ml mr
    exact internalNode_equal_panics hp _ _ rfl rfl
  · intro nh mh ph mc a l d nr mr
    rw [internalNode_equal_unfold]
    rfl

end internal
